import Mathlib

/-!
Shallow embedding of `src/genmap/rewrite/rewriter.py` (the query rewriter of
the genmap repository) together with the parts of
`src/genmap/utils/gen_extract.py` that the verified claims touch.

Strings are modelled as `List Char`; Python's `dict`s are association lists
(Python dicts have unique keys and preserve insertion order, which an
association list reproduces), Python `set`s of strings are duplicate-free
lists whose operations are implemented with set semantics.  Where Python
iterates over a `set` (an unspecified order) the embedding iterates in
sorted order; every observable output of the rewriter that depends on a
set's order is produced through `sorted(...)` in the source, so this only
fixes an order the source leaves open.  Character classes (`\s`, `\w`,
`str.isspace`) are modelled over their ASCII meaning, which covers every
character class the rewriter's regexes can meet in the claims.
-/

set_option maxRecDepth 100000

namespace GenMap

/-- ASCII whitespace as matched by Python's `\s` and `str.strip()`:
space, tab, newline, carriage return, vertical tab, form feed. -/
def isSpacePy (c : Char) : Bool :=
  c = ' ' || c = '\t' || c = '\n' || c = '\r' || c = '\x0b' || c = '\x0c'

/-- `lo <= c <= hi` on code points. -/
def charBetween (lo hi c : Char) : Bool :=
  lo.val ≤ c.val && c.val ≤ hi.val

/-- `[A-Za-z]`. -/
def isAsciiAlpha (c : Char) : Bool :=
  charBetween 'A' 'Z' c || charBetween 'a' 'z' c

/-- `[0-9]`. -/
def isAsciiDigit (c : Char) : Bool :=
  charBetween '0' '9' c

/-- Python's `\w` (ASCII part): `[A-Za-z0-9_]`. -/
def isWordPy (c : Char) : Bool :=
  isAsciiAlpha c || isAsciiDigit c || c = '_'

/-- `[\w\-]`, the tail class of `gen:`-names and prefix names. -/
def isWordHyphen (c : Char) : Bool :=
  isWordPy c || c = '-'

/-- Python `str.lstrip()`. -/
def pyLStrip (l : List Char) : List Char := l.dropWhile isSpacePy

/-- Python `str.rstrip()`. -/
def pyRStrip (l : List Char) : List Char := (l.reverse.dropWhile isSpacePy).reverse

/-- Python `str.strip()`. -/
def pyStrip (l : List Char) : List Char := pyRStrip (pyLStrip l)

/-- Python `str.strip(chars)`: drop characters of `cset` from both ends. -/
def pyStripChars (cset : List Char) (l : List Char) : List Char :=
  ((l.dropWhile (· ∈ cset)).reverse.dropWhile (· ∈ cset)).reverse

/-- Does `needle` occur as a prefix of `hay`? -/
def leadsWith : List Char → List Char → Bool
  | [], _ => true
  | _ :: _, [] => false
  | a :: as, b :: bs => a = b && leadsWith as bs

/-- Python's substring test `needle in hay`. -/
def hasSub (needle : List Char) : List Char → Bool
  | [] => leadsWith needle []
  | c :: cs => leadsWith needle (c :: cs) || hasSub needle cs

/-- Substring test on `String`s (Python `in`). -/
def strHasSub (hay needle : String) : Bool := hasSub needle.toList hay.toList

/-- Code-point lexicographic comparison, the order Python's `sorted`
uses on `str`. -/
def charsLe : List Char → List Char → Bool
  | [], _ => true
  | _ :: _, [] => false
  | a :: as, b :: bs => if a.val = b.val then charsLe as bs else decide (a.val < b.val)

def strLe (a b : String) : Bool := charsLe a.toList b.toList

def insertSorted (x : String) : List String → List String
  | [] => [x]
  | y :: ys => if strLe x y then x :: y :: ys else y :: insertSorted x ys

/-- Python `sorted` on a list of strings (stable insertion sort under the
code-point order). -/
def sortStrs : List String → List String
  | [] => []
  | x :: xs => insertSorted x (sortStrs xs)

/-- Decimal digit characters of `n`, most significant first (`toDecGo` is
fuel-structured so that it evaluates inside the kernel; any fuel at least
`n` is enough). -/
def toDecGo : Nat → Nat → List Char
  | 0, _ => []
  | f + 1, n => if n = 0 then [] else toDecGo f (n / 10) ++ [Nat.digitChar (n % 10)]

/-- Decimal rendering of a natural number, as Python's `f"{i}"` produces. -/
def natRepr (n : Nat) : List Char :=
  if n = 0 then ['0'] else toDecGo n n

/-- Everything Python's duck-typed rewriter inputs can be built from:
`None`, strings, numbers, lists and dicts (association lists, unique keys,
insertion order). -/
inductive PyVal where
  | none
  | str (s : String)
  | num (n : Int)
  | list (xs : List PyVal)
  | dict (entries : List (String × PyVal))

/-- Python `d.get(k)` on a dict modelled as an association list. -/
def pyGet (d : List (String × PyVal)) (k : String) : Option PyVal :=
  (d.find? (fun e => e.1 == k)).map (·.2)

/-- `d.get(k)` on an association list with values of an arbitrary type. -/
def alistGet {α : Type} (d : List (String × α)) (k : String) : Option α :=
  (d.find? (fun e => e.1 == k)).map (·.2)

/-- Membership with set semantics on a list of strings. -/
def memStr (x : String) (l : List String) : Bool := l.contains x

/-- Set union on duplicate-free string lists (`a | b`): keep `a`, append the
members of `b` not already present. -/
def unionStrs (a b : List String) : List String :=
  a ++ b.filter (fun x => !memStr x a)

/-- Set intersection (`a & b`). -/
def interStrs (a b : List String) : List String :=
  a.filter (fun x => memStr x b)

/-- Add one element to a set-as-list (`s.add(x)`). -/
def addStr (x : String) (l : List String) : List String :=
  if memStr x l then l else l ++ [x]

/-- Python dict assignment `d[k] = v`: overwrite in place if the key exists,
else append (insertion order). -/
def alistSet {α : Type} (d : List (String × α)) (k : String) (v : α) :
    List (String × α) :=
  if d.any (fun e => e.1 == k) then
    d.map (fun e => if e.1 == k then (k, v) else e)
  else d ++ [(k, v)]

/-- Python truthiness of a value (`if v:`). -/
def pyTruthy : PyVal → Bool
  | .none => false
  | .str s => s ≠ ""
  | .num n => n ≠ 0
  | .list xs => !xs.isEmpty
  | .dict d => !d.isEmpty

/-- Python `str.startswith`. -/
def strStartsWith (s pre : String) : Bool := leadsWith pre.toList s.toList

/-- Python `str(v)`.  Exact for the shapes the rewriter can ever be handed
(strings, numbers, `None`); list/dict renderings are abbreviated, which no
claim observes since `str(v)` is only reached for non-dict members of a
candidate list. -/
def pyStr : PyVal → String
  | .str s => s
  | .num n => if n < 0 then "-" ++ (natRepr n.natAbs).asString else (natRepr n.natAbs).asString
  | .none => "None"
  | .list _ => "[...]"
  | .dict _ => "\x7b...\x7d"

/-- One candidate entry, a Python dict such as `{"predicate": "<iri>"}`. -/
abbrev CandDict := List (String × PyVal)

/-- Canonical candidate map: `gen-key ↦ endpoint-id ↦ candidate dicts`. -/
abbrev CandMap := List (String × List (String × List CandDict))

/-- Endpoint lookup table: `endpoint-id ↦ service URL`. -/
abbrev EpUrls := List (String × String)

/-- `_sanitize_iri` from `rewriter.py`: trim, and for `<...>` forms remove
the spaces inside the angle brackets, otherwise remove all spaces. -/
def sanitizeIri (iri : List Char) : List Char :=
  let s := pyStrip iri
  if s.head? = some '<' && s.getLast? = some '>' then
    let inner := (s.drop 1).dropLast
    '<' :: (inner.filter (· ≠ ' ')) ++ ['>']
  else
    s.filter (· ≠ ' ')

def pickPredGo (c : CandDict) : List String → Option (List Char)
  | [] => Option.none
  | k :: ks =>
    match pyGet c k with
    | some (.str v) =>
      if v = "" then pickPredGo c ks
      else some (sanitizeIri ('<' :: (pyStripChars ['<', '>', ' '] v.toList) ++ ['>']))
    | _ => pickPredGo c ks

/-- `_pick_predicate_iri`: first string-valued entry among the keys
`predicate, uri, iri, p, property`, stripped of `<> ` at the ends, wrapped
in angle brackets and sanitized. -/
def pickPredicateIri (c : CandDict) : Option (List Char) :=
  pickPredGo c ["predicate", "uri", "iri", "p", "property"]

def pickUrlGo (d : List (String × PyVal)) : List String → Option String
  | [] => Option.none
  | k :: ks =>
    match pyGet d k with
    | some (.str v) => if v = "" then pickUrlGo d ks else some v
    | _ => pickUrlGo d ks

/-- `pick_url` inside `_endpoint_lookup`: first non-empty string among the
keys `service, sparql, url, endpoint, iri`. -/
def pickUrl (d : List (String × PyVal)) : Option String :=
  pickUrlGo d ["service", "sparql", "url", "endpoint", "iri"]

/-- The `k = item.get("id") or item.get("name") or ...` chain: first
truthy value among the keys. -/
def pyGetFirstTruthy (d : List (String × PyVal)) : List String → Option PyVal
  | [] => Option.none
  | k :: ks =>
    match pyGet d k with
    | some v => if pyTruthy v then some v else pyGetFirstTruthy d ks
    | _ => pyGetFirstTruthy d ks

/-- `_endpoint_lookup`: normalize the accepted `EndpointRegistry` shapes
(dict of dict-or-string, or list of id/url-bearing dicts) into
`endpoint-id ↦ URL`. -/
def endpointLookup : PyVal → EpUrls
  | .dict entries =>
    entries.foldl
      (fun lut e =>
        match e.2 with
        | .dict d => match pickUrl d with
          | some url => alistSet lut e.1 url
          | _ => lut
        | .str s => alistSet lut e.1 s
        | _ => lut) []
  | .list items =>
    items.foldl
      (fun lut item =>
        match item with
        | .dict d =>
          let k := pyGetFirstTruthy d ["id", "name", "endpoint", "alias"]
          match k with
          | some (.str ks) =>
            let url := match pickUrl d with
              | some u => some u
              | _ => if strStartsWith ks "http" then some ks else Option.none
            match url with
            | some u => alistSet lut ks u
            | _ => lut
          | _ => lut
        | _ => lut) []
  | _ => []

/-- Per-endpoint normalization inside `_normalize_candidates`: `None` is
skipped, a bare string becomes `[{"predicate": s}]`, a dict becomes a
one-element list, a list has its non-dict members coerced to
`{"predicate": str(v)}` and is kept only when non-empty. -/
def normalizePerEp (perEp : List (String × PyVal)) : List (String × List CandDict) :=
  perEp.foldl
    (fun acc e =>
      match e.2 with
      | .none => acc
      | .str s => alistSet acc e.1 [[("predicate", PyVal.str s)]]
      | .dict d => alistSet acc e.1 [d]
      | .list vs =>
        let lst := vs.map (fun v => match v with
          | .dict d => d
          | other => [("predicate", PyVal.str (pyStr other))])
        if lst.isEmpty then acc else alistSet acc e.1 lst
      | _ => acc) []

/-- `_normalize_candidates`: unwrap the `mapping.selected` / `selected`
envelopes, force every key into the `gen:` namespace, and normalize each
per-endpoint value. -/
def normalizeCandidates (candidates : PyVal) : CandMap :=
  match candidates with
  | .dict entries =>
    let root : PyVal :=
      match pyGet entries "mapping" with
      | some (.dict m) =>
        (match pyGet m "selected" with
         | some v => v
         | _ => .dict [])
      | some _ =>
        (match pyGet entries "selected" with
         | some v => v
         | _ => .dict entries)
      | _ =>
        (match pyGet entries "selected" with
         | some v => v
         | _ => .dict entries)
    match root with
    | .dict rootEntries =>
      rootEntries.foldl
        (fun out e =>
          match e.2 with
          | .dict perEp =>
            let gkey := if strStartsWith e.1 "gen:" then e.1 else "gen:" ++ e.1
            let acc := normalizePerEp perEp
            if acc.isEmpty then out else alistSet out gkey acc
          | _ => out) []
    | _ => []
  | _ => []

/-! ## TripleScanner: `_RE_GEN_TRIPLE` and `_collect_contiguous_runs` -/

/-- Parse `\?[A-Za-z_]\w*` at the head: a SPARQL variable token.
Returns the token and the rest. -/
def parseVarTok : List Char → Option (List Char × List Char)
  | '?' :: c :: rest =>
    if isAsciiAlpha c || c = '_' then
      some ('?' :: c :: rest.takeWhile isWordPy, rest.dropWhile isWordPy)
    else Option.none
  | _ => Option.none

/-- Parse `<[^>]+>` at the head: an absolute IRI token. -/
def parseIriTok : List Char → Option (List Char × List Char)
  | '<' :: rest =>
    let inner := rest.takeWhile (· ≠ '>')
    if inner.isEmpty then Option.none
    else
      match rest.dropWhile (· ≠ '>') with
      | '>' :: r => some ('<' :: inner ++ ['>'], r)
      | _ => Option.none
  | _ => Option.none

/-- Parse `"[^"]*"(?:@[a-zA-Z\-]+|\^\^<[^>]+>)?` at the head: a string
literal with an optional language tag or datatype. -/
def parseLitTok : List Char → Option (List Char × List Char)
  | '"' :: rest =>
    let inner := rest.takeWhile (· ≠ '"')
    match rest.dropWhile (· ≠ '"') with
    | '"' :: r =>
      let core := '"' :: inner ++ ['"']
      match r with
      | '@' :: r2 =>
        let tag := r2.takeWhile (fun c => isAsciiAlpha c || c = '-')
        if tag.isEmpty then some (core, '@' :: r2)
        else some (core ++ '@' :: tag, r2.dropWhile (fun c => isAsciiAlpha c || c = '-'))
      | '^' :: '^' :: r2 =>
        (match parseIriTok r2 with
         | some (iri, r3) => some (core ++ '^' :: '^' :: iri, r3)
         | _ => some (core, '^' :: '^' :: r2))
      | _ => some (core, r)
    | _ => Option.none
  | _ => Option.none

/-- Subject alternation of `_RE_GEN_TRIPLE`: variable or IRI. -/
def parseSubjTok (cs : List Char) : Option (List Char × List Char) :=
  match parseVarTok cs with
  | some r => some r
  | _ => parseIriTok cs

/-- Object alternation of `_RE_GEN_TRIPLE`: variable, IRI or literal. -/
def parseObjTok (cs : List Char) : Option (List Char × List Char) :=
  match parseVarTok cs with
  | some r => some r
  | _ => match parseIriTok cs with
    | some r => some r
    | _ => parseLitTok cs

/-- Parse `gen:[A-Za-z_][\w\-]*` at the head. -/
def parsePredTok (cs : List Char) : Option (List Char × List Char) :=
  if leadsWith ['g', 'e', 'n', ':'] cs then
    match cs.drop 4 with
    | c :: rest =>
      if isAsciiAlpha c || c = '_' then
        some ('g' :: 'e' :: 'n' :: ':' :: c :: rest.takeWhile isWordHyphen,
              rest.dropWhile isWordHyphen)
      else Option.none
    | _ => Option.none
  else Option.none

/-- One generic-triple match: source span `[mstart, mstop)` plus the
`subj`/`pred`/`obj` groups. -/
structure GMatch where
  mstart : Nat
  mstop : Nat
  subj : String
  pred : String
  obj : String
deriving Repr, DecidableEq

/-- Anchored attempt of `_RE_GEN_TRIPLE` at the head of `cs`: consumed
length plus the three groups.  The trailing `(?:\s*\.\s*)?` is taken
greedily when a dot follows, exactly as the regex engine does. -/
def matchGenAt (cs : List Char) : Option (Nat × String × String × String) :=
  match parseSubjTok cs with
  | some (subj, r1) =>
    let w1 := r1.takeWhile isSpacePy
    if w1.isEmpty then Option.none
    else
      match parsePredTok (r1.dropWhile isSpacePy) with
      | some (pred, r2) =>
        let w2 := r2.takeWhile isSpacePy
        if w2.isEmpty then Option.none
        else
          match parseObjTok (r2.dropWhile isSpacePy) with
          | some (obj, r3) =>
            let rest :=
              match r3.dropWhile isSpacePy with
              | '.' :: r4 => r4.dropWhile isSpacePy
              | _ => r3
            some (cs.length - rest.length, subj.asString, pred.asString, obj.asString)
          | _ => Option.none
      | _ => Option.none
  | _ => Option.none

/-- `_RE_GEN_TRIPLE.finditer(body)`: scan left to right, non-overlapping,
recording spans.  Fuel-structured; every step consumes at least one
character, so fuel `body.length` is exact. -/
def scanGenGo : Nat → List Char → Nat → List GMatch
  | 0, _, _ => []
  | _ + 1, [], _ => []
  | f + 1, c :: cs, pos =>
    match matchGenAt (c :: cs) with
    | some (k + 1, subj, pred, obj) =>
      ⟨pos, pos + (k + 1), subj, pred, obj⟩ ::
        scanGenGo f ((c :: cs).drop (k + 1)) (pos + (k + 1))
    | _ => scanGenGo f cs (pos + 1)

def scanGen (body : List Char) : List GMatch := scanGenGo body.length body 0

/-- Is the gap `body[e : s)` whitespace-only (`sep.strip() == ""`)? -/
def gapWS (body : List Char) (e s : Nat) : Bool :=
  ((body.drop e).take (s - e)).all isSpacePy

/-- A maximal contiguous run: full span plus its matches. -/
structure Run where
  rstart : Nat
  rend : Nat
  group : List GMatch
deriving Repr, DecidableEq

/-- The inner `while` of `_collect_contiguous_runs`: absorb following
matches while the gap is whitespace-only.  Returns the absorbed matches,
the final end offset, and the remaining matches. -/
def splitRun (body : List Char) (e : Nat) : List GMatch → List GMatch × Nat × List GMatch
  | [] => ([], e, [])
  | n :: rest =>
    if gapWS body e n.mstart then
      let (t, e', r) := splitRun body n.mstop rest
      (n :: t, e', r)
    else ([], e, n :: rest)

theorem splitRun_rest_length (body : List Char) (e : Nat) (ms : List GMatch) :
    (splitRun body e ms).2.2.length ≤ ms.length := by
  induction ms generalizing e with
  | nil => simp [splitRun]
  | cons n rest ih =>
    simp only [splitRun]
    split
    · have := ih n.mstop
      simpa using Nat.le_succ_of_le this
    · simp

/-- `_collect_contiguous_runs`, fuel-structured (`splitRun_rest_length`
makes fuel `ms.length` sufficient). -/
def collectRunsGo (body : List Char) : Nat → List GMatch → List Run
  | 0, _ => []
  | _ + 1, [] => []
  | f + 1, m :: rest =>
    ⟨m.mstart, (splitRun body m.mstop rest).2.1,
      m :: (splitRun body m.mstop rest).1⟩ ::
      collectRunsGo body f (splitRun body m.mstop rest).2.2

def collectRuns (body : List Char) (ms : List GMatch) : List Run :=
  collectRunsGo body ms.length ms

/-! ## Candidate lookup and the Segmenter (`_segment_by_service_chains`) -/

/-- `gkey.split(":", 1)[1] if ":" in gkey else gkey`. -/
def splitColonTail (s : String) : String :=
  if s.toList.contains ':' then
    (((s.toList.dropWhile (· ≠ ':')).drop 1)).asString
  else s

/-- Python truthiness of a looked-up per-endpoint dict (`if not per_ep`):
absent or empty is falsy. -/
def candTruthy (o : Option (List (String × List CandDict))) : Bool :=
  match o with
  | some pe => !pe.isEmpty
  | _ => false

/-- The `cand_map.get(gkey)` / bare-key / `gen:`-key fallback chain shared
by `_get_match_services` and `_build_segment_query`, including the final
falsiness check. -/
def lookupCand (cm : CandMap) (gkey : String) :
    Option (List (String × List CandDict)) :=
  let p1 := alistGet cm gkey
  let p :=
    if candTruthy p1 then p1
    else
      let loc := splitColonTail gkey
      let p2 := alistGet cm loc
      if candTruthy p2 then p2 else alistGet cm ("gen:" ++ loc)
  if candTruthy p then p else Option.none

/-- `ep_urls.get(ep) or (ep if ep.startswith("http") else None)`, with
Python's falsiness of the empty string. -/
def svcFor (eps : EpUrls) (ep : String) : Option String :=
  let fallback := if strStartsWith ep "http" then some ep else Option.none
  match alistGet eps ep with
  | some url => if url = "" then fallback else some url
  | _ => fallback

/-- `_get_match_services`: the set of service URLs able to serve a match. -/
def getMatchServices (m : GMatch) (cm : CandMap) (eps : EpUrls) : List String :=
  match lookupCand cm m.pred with
  | some perEp =>
    perEp.foldl
      (fun services e =>
        match e.2 with
        | [] => services
        | c :: _ =>
          match pickPredicateIri c with
          | some _ =>
            (match svcFor eps e.1 with
             | some svc => addStr svc services
             | _ => services)
          | _ => services) []
  | _ => []

/-- `_is_var`. -/
def strIsVar (tok : String) : Bool := strStartsWith tok "?"

/-- `_get_vars`: the variable subject/object of a match, as a set. -/
def getVars (m : GMatch) : List String :=
  let vs : List String := if strIsVar m.subj then [m.subj] else []
  if strIsVar m.obj then addStr m.obj vs else vs

/-- The alias `f"?{base}_{tag}{i}"` tried by `_fresh_var`. -/
def freshCand (base tag : String) (i : Nat) : String :=
  "?" ++ base ++ "_" ++ tag ++ (natRepr i).asString

def freshVarGo (base tag : String) (used : List String) : Nat → Nat → String
  | 0, i => freshCand base tag i
  | f + 1, i =>
    if memStr (freshCand base tag i) used then freshVarGo base tag used f (i + 1)
    else freshCand base tag i

/-- `_fresh_var`: the first `?{base}_{tag}{i}` (i = 1, 2, …) not in `used`,
which is recorded into `used`.  The fuel `used.length + 1` provably
suffices (`freshVar_not_used`), so the totalized recursion agrees with the
source's unbounded `while`. -/
def freshVar (base : String) (used : List String) (tag : String) :
    String × List String :=
  let b := (base.toList.dropWhile (· = '?')).asString
  let c := freshVarGo b tag used (used.length + 1) 1
  (c, used ++ [c])

/-- A segment under construction: its matches, endpoint set, variable set
and outgoing rename map. -/
structure Segment where
  gmatches : List GMatch
  services : List String
  vars : List String
  renames : List (String × String)
deriving Repr, DecidableEq

/-- A bridge between two consecutive segments: the closing segment's
services, the new segment's services, and per shared variable the pair
(variable, left alias, right canonical name). -/
structure Bridge where
  leftServices : List String
  rightServices : List String
  mappings : List (String × String × String)
deriving Repr, DecidableEq

/-- The loop state of `_segment_by_service_chains`. -/
structure SegState where
  segments : List Segment
  bridges : List Bridge
  cur : Segment
  hasUnion : Bool
  used : List String
deriving Repr

/-- `for var in shared_vars: if var not in renames: renames[var] = fresh`.
Python iterates the set `shared_vars` in an unspecified order; the
embedding fixes the sorted order. -/
def mintRenames (sharedVars : List String)
    (renames : List (String × String)) (used : List String) :
    List (String × String) × List String :=
  (sortStrs sharedVars).foldl
    (fun st v =>
      if (alistGet st.1 v).isSome then st
      else
        let f := freshVar v st.2 "L"
        (alistSet st.1 v f.1, f.2))
    (renames, used)

/-- The explicit left-alias → right-canonical mapping recorded on a
bridge.  (The looked-up rename always exists; the `none` arm is dead.) -/
def bridgeMappingsOf (sharedVars : List String)
    (renames : List (String × String)) : List (String × String × String) :=
  (sortStrs sharedVars).foldl
    (fun acc v =>
      match alistGet renames v with
      | some l => acc ++ [(v, l, v)]
      | _ => acc) []

/-- One iteration of the main loop of `_segment_by_service_chains`. -/
def segStep (cm : CandMap) (eps : EpUrls) (st : SegState) (m : GMatch) :
    SegState :=
  let mServices := getMatchServices m cm eps
  let mVars := getVars m
  let sharedServices := interStrs st.cur.services mServices
  let sharedVars := interStrs st.cur.vars mVars
  let needsBridge :=
    (st.hasUnion && !sharedVars.isEmpty) ||
    (sharedServices.isEmpty && !sharedVars.isEmpty)
  if needsBridge then
    let minted := mintRenames sharedVars st.cur.renames st.used
    let closed : Segment := { st.cur with renames := minted.1 }
    { segments := st.segments ++ [closed]
      bridges := st.bridges ++
        [⟨closed.services, mServices, bridgeMappingsOf sharedVars minted.1⟩]
      cur := { gmatches := [m], services := mServices, vars := mVars, renames := [] }
      hasUnion := decide (1 < mServices.length)
      used := minted.2 }
  else
    { st with
      cur := { gmatches := st.cur.gmatches ++ [m]
               services := unionStrs st.cur.services mServices
               vars := unionStrs st.cur.vars mVars
               renames := st.cur.renames }
      hasUnion := st.hasUnion || decide (1 < mServices.length) }

/-- The state seeded from the first match. -/
def initSegState (cm : CandMap) (eps : EpUrls) (m0 : GMatch) : SegState :=
  let svcs := getMatchServices m0 cm eps
  { segments := []
    bridges := []
    cur := { gmatches := [m0], services := svcs, vars := getVars m0, renames := [] }
    hasUnion := decide (1 < svcs.length)
    used := [] }

/-- `_segment_by_service_chains`. -/
def segmentByServiceChains (ms : List GMatch) (cm : CandMap) (eps : EpUrls) :
    List Segment × List Bridge :=
  match ms with
  | [] => ([], [])
  | m0 :: rest =>
    let st := rest.foldl (segStep cm eps) (initSegState cm eps m0)
    (st.segments ++ [st.cur], st.bridges)

/-! ## BridgeBuilder (`_build_bridge`) and ServiceBlockBuilder
(`_build_segment_query`) -/

/-- Python `"".join(parts)`. -/
def strJoin : List String → String
  | [] => ""
  | s :: rest => s ++ strJoin rest

/-- Python `sep.join(parts)`. -/
def joinSep (sep : String) : List String → String
  | [] => ""
  | [b] => b
  | b :: rest => b ++ sep ++ joinSep sep rest

/-- The identity predicate constant of `_build_bridge`. -/
def OWL_SAMEAS : String := "<http://www.w3.org/2002/07/owl#sameAs>"

/-- Normalize a bridge's mappings to (left, right) pairs, in order.  The
source accepts a dict (or list) of `{"left": …, "right": …}` entries; the
Segmenter always passes the dict shape, whose values are the pairs. -/
def bridgePairs (mappings : List (String × String × String)) :
    List (String × String) :=
  mappings.map (fun t => (t.2.1, t.2.2))

/-- `svc_uri = _sanitize_iri(svc).strip("<>")`. -/
def svcUri (svc : String) : String :=
  (pyStripChars ['<', '>'] (sanitizeIri svc.toList)).asString

/-- One per-service identity block of `_build_bridge`: both directions of
`owl:sameAs`, one `{l sameAs r} UNION {r sameAs l}` group per pair. -/
def svcIdentityBlock (pairs : List (String × String)) (svc : String) : String :=
  "SERVICE <" ++ svcUri svc ++ "> \x7b " ++
    strJoin (pairs.map (fun p =>
      "\x7b " ++ p.1 ++ " " ++ OWL_SAMEAS ++ " " ++ p.2 ++ " \x7d UNION \x7b " ++
        p.2 ++ " " ++ OWL_SAMEAS ++ " " ++ p.1 ++ " \x7d ")) ++ "\x7d"

/-- The fallback `BIND(left AS right)` branch. -/
def bindsOf (pairs : List (String × String)) : String :=
  joinSep " " (pairs.map (fun p => "BIND(" ++ p.1 ++ " AS " ++ p.2 ++ ")"))

/-- `_build_bridge`. -/
def buildBridge (leftServices rightServices : List String)
    (mappings : List (String × String × String)) : String :=
  let pairs := bridgePairs mappings
  if pairs.isEmpty then ""
  else
    let commonServices := interStrs leftServices rightServices
    let bridgeServices :=
      if commonServices.isEmpty then unionStrs leftServices rightServices
      else commonServices
    let svcBlocks := (sortStrs bridgeServices).map (svcIdentityBlock pairs)
    let binds := bindsOf pairs
    let blocks := svcBlocks ++ (if binds = "" then [] else [binds])
    match blocks with
    | [] => ""
    | [b] => b
    | _ => "\x7b \x7b " ++ joinSep " \x7d UNION \x7b " blocks ++ " \x7d \x7d"

/-- The inner `for ep, lst in per_ep.items()` of `_build_segment_query`:
the first endpoint whose service URL equals `svc` decides (then `break`),
yielding a triple line when its top candidate has a predicate. -/
def findTripleForSvc (perEp : List (String × List CandDict)) (eps : EpUrls)
    (svc subj obj : String) : Option String :=
  match perEp with
  | [] => Option.none
  | e :: rest =>
    match e.2 with
    | [] => findTripleForSvc rest eps svc subj obj
    | c :: _ =>
      match svcFor eps e.1 with
      | some s =>
        if s = svc then
          match pickPredicateIri c with
          | some pred => some (subj ++ " " ++ pred.asString ++ " " ++ obj ++ " .")
          | _ => Option.none
        else findTripleForSvc rest eps svc subj obj
      | _ => findTripleForSvc rest eps svc subj obj

/-- Order-preserving deduplication of the triple lines. -/
def dedupPreserve (l : List String) : List String :=
  (l.foldl
    (fun st t => if memStr t st.1 then st else (st.1 ++ [t], st.2 ++ [t]))
    ([], [])).2

/-- The triple lines one service contributes to a segment (the inner
`for m in seg["matches"]` loop of `_build_segment_query`). -/
def segTriplesFor (seg : Segment) (cm : CandMap) (eps : EpUrls)
    (svc : String) : List String :=
  seg.gmatches.foldl
    (fun ts m =>
      if !memStr svc (getMatchServices m cm eps) then ts
      else
        let subj := match alistGet seg.renames m.subj with
          | some s => s
          | _ => m.subj
        let obj := match alistGet seg.renames m.obj with
          | some o => o
          | _ => m.obj
        match lookupCand cm m.pred with
        | some perEp =>
          (match findTripleForSvc perEp eps svc subj obj with
           | some t => ts ++ [t]
           | _ => ts)
        | _ => ts) []

/-- The per-service triple lines of a segment (the `service_triples` dict,
keys in the sorted-service order the source iterates in). -/
def serviceTriplesOf (seg : Segment) (cm : CandMap) (eps : EpUrls) :
    List (String × List String) :=
  (sortStrs seg.services).foldl
    (fun acc svc =>
      let triples := segTriplesFor seg cm eps svc
      if triples.isEmpty then acc
      else acc ++ [(svc, dedupPreserve triples)]) []

/-- `_build_segment_query`: one `SERVICE` block per serving endpoint,
wrapped in a `UNION` group when there are several. -/
def buildSegmentQuery (seg : Segment) (cm : CandMap) (eps : EpUrls) :
    Option String :=
  let st := serviceTriplesOf seg cm eps
  if st.isEmpty then Option.none
  else
    let blocks := (sortStrs (st.map (·.1))).foldl
      (fun bs svc =>
        match alistGet st svc with
        | some triples =>
          bs ++ ["SERVICE <" ++ svcUri svc ++ "> \x7b " ++
            joinSep " " triples ++ " \x7d"]
        | _ => bs) []
    match blocks with
    | [] => Option.none
    | [b] => some b
    | _ => some ("\x7b \x7b " ++ joinSep " \x7d UNION \x7b " blocks ++ " \x7d \x7d")

/-! ## The `re.sub` scanners: `_fix_spaces_in_prefix_iris` and `_tidy` -/

/-- Generic left-to-right scan-and-replace, the evaluation order of
`re.sub`: at each position try an anchored match; on success emit the
replacement and resume after the consumed text, else emit one character.
The flag tracks whether the position starts a line (for `(?m)^`). -/
def lastIsNL (l : List Char) : Bool :=
  match l.getLast? with
  | some c => c = '\n'
  | _ => false

def subScanGo (m : Bool → List Char → Option (List Char × List Char)) :
    Nat → Bool → List Char → List Char
  | 0, _, rest => rest
  | _ + 1, _, [] => []
  | f + 1, atLS, c :: cs =>
    match m atLS (c :: cs) with
    | some (consumed, repl) =>
      match consumed with
      | [] => c :: subScanGo m f (c = '\n') cs
      | a :: cr =>
        repl ++ subScanGo m f (lastIsNL (a :: cr))
          ((c :: cs).drop (a :: cr).length)
    | _ => c :: subScanGo m f (c = '\n') cs

def subScan (m : Bool → List Char → Option (List Char × List Char))
    (atLS : Bool) (cs : List Char) : List Char :=
  subScanGo m cs.length atLS cs

/-- `lowerAscii`: the case folding `(?i)` applies on ASCII. -/
def lowerAscii (c : Char) : Char :=
  if charBetween 'A' 'Z' c then Char.ofNat (c.toNat + 32) else c

/-- Case-insensitive prefix test (needle given lowercase). -/
def leadsWithCI : List Char → List Char → Bool
  | [], _ => true
  | _ :: _, [] => false
  | a :: as, b :: bs => a = lowerAscii b && leadsWithCI as bs

/-- Index of the last `'\n'` in a list known to contain one. -/
def lastNLIndex (l : List Char) : Nat :=
  l.length - 1 - (l.reverse.findIdx (· = '\n'))

/-- Anchored match of `_RE_PREFIX_LINE`
(`(?im)^\s*PREFIX\s+([A-Za-z][\w\-]*)\s*:\s*<([^>]+)>\s*$`) together with
its replacement `PREFIX {p}: <{iri-without-spaces}>`. -/
def matchPrefixLine (atLS : Bool) (cs : List Char) :
    Option (List Char × List Char) :=
  if !atLS then Option.none
  else
    let w1 := cs.takeWhile isSpacePy
    let r1 := cs.dropWhile isSpacePy
    if !leadsWithCI ['p', 'r', 'e', 'f', 'i', 'x'] r1 then Option.none
    else
      let kw := r1.take 6
      let r2 := r1.drop 6
      let w2 := r2.takeWhile isSpacePy
      let r3 := r2.dropWhile isSpacePy
      if w2.isEmpty then Option.none
      else
        match r3 with
        | c0 :: r4 =>
          if !isAsciiAlpha c0 then Option.none
          else
            let nm := r4.takeWhile isWordHyphen
            let r5 := r4.dropWhile isWordHyphen
            let w3 := r5.takeWhile isSpacePy
            match r5.dropWhile isSpacePy with
            | ':' :: r7 =>
              let w4 := r7.takeWhile isSpacePy
              match r7.dropWhile isSpacePy with
              | '<' :: r9 =>
                let iri := r9.takeWhile (· ≠ '>')
                if iri.isEmpty then Option.none
                else
                  match r9.dropWhile (· ≠ '>') with
                  | '>' :: r11 =>
                    let w5 := r11.takeWhile isSpacePy
                    let r12 := r11.dropWhile isSpacePy
                    let tail? : Option (List Char) :=
                      if r12.isEmpty then some w5
                      else if w5.contains '\n' then some (w5.take (lastNLIndex w5))
                      else Option.none
                    match tail? with
                    | some w5' =>
                      some (w1 ++ kw ++ w2 ++ (c0 :: nm) ++ w3 ++ [':'] ++ w4 ++
                              '<' :: iri ++ ['>'] ++ w5',
                            ['P','R','E','F','I','X',' '] ++ (c0 :: nm) ++
                              [':',' ','<'] ++ iri.filter (· ≠ ' ') ++ ['>'])
                    | _ => Option.none
                  | _ => Option.none
              | _ => Option.none
            | _ => Option.none
        | _ => Option.none

/-- `_fix_spaces_in_prefix_iris`. -/
def fixSpacesInPrefixIris (l : List Char) : List Char :=
  subScan matchPrefixLine true l

/-- Anchored match of `\s+([}\)])\s*\.\s*` with replacement `' ' + group`. -/
def matchTidy1 (_ : Bool) (cs : List Char) : Option (List Char × List Char) :=
  let w1 := cs.takeWhile isSpacePy
  if w1.isEmpty then Option.none
  else
    match cs.dropWhile isSpacePy with
    | c :: r2 =>
      if c = '}' || c = ')' then
        let w2 := r2.takeWhile isSpacePy
        match r2.dropWhile isSpacePy with
        | '.' :: r4 =>
          let w3 := r4.takeWhile isSpacePy
          some (w1 ++ c :: w2 ++ '.' :: w3, [' ', c])
        | _ => Option.none
      else Option.none
    | _ => Option.none

/-- Anchored match of `}\s*{` with replacement `} {`. -/
def matchTidy2 (_ : Bool) (cs : List Char) : Option (List Char × List Char) :=
  match cs with
  | '}' :: r1 =>
    let w := r1.takeWhile isSpacePy
    match r1.dropWhile isSpacePy with
    | '{' :: _ => some ('}' :: w ++ ['{'], ['}', ' ', '{'])
    | _ => Option.none
  | _ => Option.none

/-- Anchored match of `[ \t]+\n` with replacement `\n`. -/
def matchTidy3 (_ : Bool) (cs : List Char) : Option (List Char × List Char) :=
  let w := cs.takeWhile (fun c => c = ' ' || c = '\t')
  if w.isEmpty then Option.none
  else
    match cs.dropWhile (fun c => c = ' ' || c = '\t') with
    | '\n' :: _ => some (w ++ ['\n'], ['\n'])
    | _ => Option.none

/-- `_tidy`: the three cleanup substitutions, in source order. -/
def tidy (l : List Char) : List Char :=
  subScan matchTidy3 true (subScan matchTidy2 true (subScan matchTidy1 true l))

/-! ## `_split_prologue` and `rewrite` -/

/-- Does one of `SELECT|CONSTRUCT|ASK|DESCRIBE` match case-insensitively at
the head, with a word boundary after it? -/
def kwAt (cs : List Char) : Bool :=
  [['s','e','l','e','c','t'], ['c','o','n','s','t','r','u','c','t'],
   ['a','s','k'], ['d','e','s','c','r','i','b','e']].any
    (fun kw =>
      leadsWithCI kw cs &&
        (match (cs.drop kw.length).head? with
         | some c => !isWordPy c
         | _ => true))

/-- Leftmost match position of `(?is)\b(SELECT|CONSTRUCT|ASK|DESCRIBE)\b`. -/
def findKwGo : List Char → Nat → Bool → Option Nat
  | [], _, _ => Option.none
  | c :: cs, pos, prevW =>
    if !prevW && kwAt (c :: cs) then some pos
    else findKwGo cs (pos + 1) (isWordPy c)

/-- `_split_prologue`. -/
def splitPrologue (q : List Char) : List Char × List Char :=
  match findKwGo q 0 false with
  | some i => (q.take i, q.drop i)
  | _ => ([], q)

/-- The `rewritten.strip()` / wrap-in-braces-when-`UNION` step of
`rewrite`'s fragment loop. -/
def applyWrapIfUnion (s : String) : String :=
  let st := pyStrip s.toList
  if hasSub ['U','N','I','O','N'] st && !(leadsWith ['{'] st) then
    "\x7b " ++ st.asString ++ " \x7d"
  else s

/-- The `for i, seg in enumerate(segments)` loop body of `rewrite`:
segment fragment (when buildable) then bridge fragment (when present). -/
def runFragmentsGo (cm : CandMap) (eps : EpUrls) :
    List Segment → Nat → List Bridge → List String
  | [], _, _ => []
  | seg :: rest, i, bridges =>
    let segPart : List String :=
      match buildSegmentQuery seg cm eps with
      | some rw => [applyWrapIfUnion rw ++ " "]
      | _ => []
    let bridgePart : List String :=
      match bridges[i]? with
      | some b =>
        let bp := buildBridge b.leftServices b.rightServices b.mappings
        if bp = "" then [] else [applyWrapIfUnion bp ++ " "]
      | _ => []
    segPart ++ bridgePart ++ runFragmentsGo cm eps rest (i + 1) bridges

/-- The run-splicing loop of `rewrite`: copy the text before each run,
emit the run's fragments, and finally copy the text after the last run. -/
def assembleRuns (cm : CandMap) (eps : EpUrls) (body : List Char) :
    List Run → Nat → List Char
  | [], last => body.drop last
  | r :: rest, last =>
    let sb := segmentByServiceChains r.group cm eps
    let frags := runFragmentsGo cm eps sb.1 0 sb.2
    ((body.drop last).take (r.rstart - last)) ++
      (strJoin frags).toList ++ assembleRuns cm eps body rest r.rend

/-- `rewrite`, over `List Char`. -/
def rewriteL (query : List Char) (candidates endpoints : PyVal) : List Char :=
  let epUrls := endpointLookup endpoints
  let candMap := normalizeCandidates candidates
  let pb := splitPrologue query
  let prologue := pb.1
  let body := pb.2
  match collectRuns body (scanGen body) with
  | [] => tidy (pyRStrip (fixSpacesInPrefixIris prologue) ++ ' ' :: pyLStrip body)
  | r :: rest =>
    let joined := assembleRuns candMap epUrls body (r :: rest) 0
    let out :=
      if prologue.isEmpty then pyLStrip joined
      else pyRStrip (fixSpacesInPrefixIris prologue) ++ ' ' :: pyLStrip joined
    let out := tidy out
    if out.count '{' ≠ out.count '}' then fixSpacesInPrefixIris query else out

/-- `rewrite(query, candidates, endpoints)`, the rewriter's entry point. -/
def rewrite (query : String) (candidates endpoints : PyVal) : String :=
  (rewriteL query.toList candidates endpoints).asString

/-! ## Counting lemmas: the scan-and-replace passes preserve brace counts -/

/-- A character is one of the two braces. -/
def IsBrace (c : Char) : Prop := c = '{' ∨ c = '}'

theorem count_eq_zero_of_forall_ne {l : List Char} {c : Char}
    (h : ∀ x ∈ l, x ≠ c) : l.count c = 0 :=
  List.count_eq_zero.mpr (fun hc => (h c hc) rfl)

theorem isSpacePy_ne_brace {x c : Char} (hx : isSpacePy x = true)
    (hc : IsBrace c) : x ≠ c := by
  simp only [isSpacePy, Bool.or_eq_true, decide_eq_true_eq] at hx
  rcases hc with rfl | rfl <;>
    rcases hx with ((((rfl | rfl) | rfl) | rfl) | rfl) | rfl <;> decide

theorem count_spaces_eq_zero {l : List Char} {c : Char}
    (hl : ∀ x ∈ l, isSpacePy x = true) (hc : IsBrace c) : l.count c = 0 :=
  count_eq_zero_of_forall_ne (fun x hx => isSpacePy_ne_brace (hl x hx) hc)

theorem count_takeWhile_spaces (l : List Char) {c : Char} (hc : IsBrace c)
    (p : Char → Bool) (hp : ∀ x, p x = true → isSpacePy x = true) :
    (l.takeWhile p).count c = 0 :=
  count_spaces_eq_zero (fun x hx => hp x (List.mem_takeWhile_imp hx)) hc

theorem isWordHyphen_ne_brace {x c : Char} (hx : isWordHyphen x = true)
    (hc : IsBrace c) : x ≠ c := by
  rcases hc with rfl | rfl <;> rintro rfl <;> simp [isWordHyphen, isWordPy,
    isAsciiAlpha, isAsciiDigit, charBetween] at hx

/-- `pyLStrip` drops only whitespace, so brace counts survive. -/
theorem count_pyLStrip (l : List Char) {c : Char} (hc : IsBrace c) :
    (pyLStrip l).count c = l.count c := by
  conv_rhs => rw [← List.takeWhile_append_dropWhile (p := isSpacePy) (l := l)]
  rw [List.count_append, pyLStrip,
    count_takeWhile_spaces l hc isSpacePy (fun _ h => h), Nat.zero_add]

/-- `pyRStrip` drops only whitespace. -/
theorem count_pyRStrip (l : List Char) {c : Char} (hc : IsBrace c) :
    (pyRStrip l).count c = l.count c := by
  rw [pyRStrip, List.count_reverse]
  conv_rhs => rw [← List.count_reverse,
    ← List.takeWhile_append_dropWhile (p := isSpacePy) (l := l.reverse)]
  rw [List.count_append,
    count_takeWhile_spaces l.reverse hc isSpacePy (fun _ h => h), Nat.zero_add]

/-- The generic `re.sub` scan preserves the count of `c` whenever every
successful match consumes a prefix whose `c`-count equals its
replacement's. -/
theorem subScanGo_count (m : Bool → List Char → Option (List Char × List Char))
    (c : Char)
    (H : ∀ fl cs consumed repl, m fl cs = some (consumed, repl) →
        (∃ rest, cs = consumed ++ rest) ∧ repl.count c = consumed.count c) :
    ∀ f fl cs, (subScanGo m f fl cs).count c = cs.count c := by
  intro f
  induction f with
  | zero => intro fl cs; rfl
  | succ f ih =>
    intro fl cs
    match cs with
    | [] => rfl
    | c' :: cs' =>
      rw [subScanGo]
      cases hm : m fl (c' :: cs') with
      | none => simp only [List.count_cons]; rw [ih]
      | some pr =>
        obtain ⟨consumed, repl⟩ := pr
        match consumed with
        | [] => simp only [List.count_cons]; rw [ih]
        | a :: cr =>
          obtain ⟨⟨rest, hdec⟩, hcount⟩ := H fl (c' :: cs') (a :: cr) repl hm
          have hdrop : (c' :: cs').drop (a :: cr).length = rest := by
            rw [hdec, List.drop_left]
          rw [List.count_append, hdrop, ih, hcount, hdec, List.count_append]

theorem subScan_count (m : Bool → List Char → Option (List Char × List Char))
    (c : Char)
    (H : ∀ fl cs consumed repl, m fl cs = some (consumed, repl) →
        (∃ rest, cs = consumed ++ rest) ∧ repl.count c = consumed.count c)
    (fl : Bool) (cs : List Char) : (subScan m fl cs).count c = cs.count c :=
  subScanGo_count m c H cs.length fl cs

theorem count_singleton_ne {a c : Char} (h : a ≠ c) : [a].count c = 0 := by
  simp [List.count_singleton, h]

theorem matchTidy1_spec {c : Char} (hc : IsBrace c) :
    ∀ fl cs consumed repl, matchTidy1 fl cs = some (consumed, repl) →
      (∃ rest, cs = consumed ++ rest) ∧ repl.count c = consumed.count c := by
  intro fl cs consumed repl hm
  simp only [matchTidy1] at hm
  split at hm
  · exact Option.noConfusion hm
  split at hm
  all_goals try exact Option.noConfusion hm
  split at hm
  all_goals try exact Option.noConfusion hm
  split at hm
  all_goals try exact Option.noConfusion hm
  rename_i cb r2 heq hguard xf r4 heq2
  obtain ⟨rfl, rfl⟩ := Prod.mk.injEq _ _ _ _ ▸ Option.some.inj hm
  have hdot : ('.' : Char) ≠ c := by rcases hc with rfl | rfl <;> decide
  have hspc : (' ' : Char) ≠ c := by rcases hc with rfl | rfl <;> decide
  constructor
  · refine ⟨r4.dropWhile isSpacePy, ?_⟩
    conv_lhs => rw [← List.takeWhile_append_dropWhile (p := isSpacePy) (l := cs), heq]
    conv_lhs => rw [← List.takeWhile_append_dropWhile (p := isSpacePy) (l := r2), heq2]
    conv_lhs => rw [← List.takeWhile_append_dropWhile (p := isSpacePy) (l := r4)]
    simp
  · simp only [List.count_append, List.count_cons,
      count_takeWhile_spaces _ hc isSpacePy (fun _ h => h), List.count_nil]
    simp [count_singleton_ne hdot, count_singleton_ne hspc, hdot, hspc,
      List.count_singleton]

theorem matchTidy2_spec {c : Char} (hc : IsBrace c) :
    ∀ fl cs consumed repl, matchTidy2 fl cs = some (consumed, repl) →
      (∃ rest, cs = consumed ++ rest) ∧ repl.count c = consumed.count c := by
  intro fl cs consumed repl hm
  simp only [matchTidy2] at hm
  split at hm
  all_goals try exact Option.noConfusion hm
  split at hm
  all_goals try exact Option.noConfusion hm
  rename_i f1 r1 f2 r2 heq
  obtain ⟨rfl, rfl⟩ := Prod.mk.injEq _ _ _ _ ▸ Option.some.inj hm
  have hspc : (' ' : Char) ≠ c := by rcases hc with rfl | rfl <;> decide
  constructor
  · refine ⟨r2, ?_⟩
    conv_lhs => rw [← List.takeWhile_append_dropWhile (p := isSpacePy) (l := r1), heq]
    simp
  · simp only [List.count_append, List.count_cons,
      count_takeWhile_spaces _ hc isSpacePy (fun _ h => h), List.count_nil]
    rcases hc with rfl | rfl <;> simp [hspc]

theorem matchTidy3_spec {c : Char} (hc : IsBrace c) :
    ∀ fl cs consumed repl, matchTidy3 fl cs = some (consumed, repl) →
      (∃ rest, cs = consumed ++ rest) ∧ repl.count c = consumed.count c := by
  intro fl cs consumed repl hm
  simp only [matchTidy3] at hm
  split at hm
  · exact Option.noConfusion hm
  split at hm
  all_goals try exact Option.noConfusion hm
  rename_i hne r heq
  obtain ⟨rfl, rfl⟩ := Prod.mk.injEq _ _ _ _ ▸ Option.some.inj hm
  have hsub : ∀ x ∈ cs.takeWhile (fun ch => ch = ' ' || ch = '\t'),
      isSpacePy x = true := by
    intro x hx
    have := List.mem_takeWhile_imp hx
    simp only [Bool.or_eq_true, decide_eq_true_eq] at this
    rcases this with rfl | rfl <;> rfl
  have hnl : ('\n' : Char) ≠ c := by rcases hc with rfl | rfl <;> decide
  constructor
  · refine ⟨r, ?_⟩
    conv_lhs => rw [← List.takeWhile_append_dropWhile
      (p := fun ch => ch = ' ' || ch = '\t') (l := cs), heq]
    simp
  · simp only [List.count_append, List.count_cons,
      count_spaces_eq_zero hsub hc, List.count_nil]
    simp [count_singleton_ne hnl, hnl]

theorem leadsWithCI_take {nd cs : List Char} (h : leadsWithCI nd cs = true) :
    ∀ x ∈ cs.take nd.length, lowerAscii x ∈ nd := by
  induction nd generalizing cs with
  | nil => simp
  | cons a as ih =>
    match cs with
    | [] => simp [leadsWithCI] at h
    | b :: bs =>
      simp only [leadsWithCI, Bool.and_eq_true, decide_eq_true_eq] at h
      intro x hx
      simp only [List.length_cons, List.take_succ_cons, List.mem_cons] at hx
      rcases hx with rfl | hx
      · simp [← h.1]
      · simp [ih h.2 x hx]

theorem lowerAscii_prefix_ne_brace {x c : Char}
    (hx : lowerAscii x ∈ ['p', 'r', 'e', 'f', 'i', 'x']) (hc : IsBrace c) :
    x ≠ c := by
  rintro rfl
  rcases hc with rfl | rfl <;> revert hx <;> decide

theorem isAsciiAlpha_ne_brace {x c : Char} (hx : isAsciiAlpha x = true)
    (hc : IsBrace c) : x ≠ c := by
  rintro rfl
  rcases hc with rfl | rfl <;> revert hx <;> decide

theorem matchPrefixLine_spec {c : Char} (hc : IsBrace c) :
    ∀ fl cs consumed repl, matchPrefixLine fl cs = some (consumed, repl) →
      (∃ rest, cs = consumed ++ rest) ∧ repl.count c = consumed.count c := by
  intro fl cs consumed repl hm
  simp only [matchPrefixLine] at hm
  split at hm
  · exact Option.noConfusion hm
  split at hm
  · exact Option.noConfusion hm
  split at hm
  · exact Option.noConfusion hm
  split at hm
  all_goals try exact Option.noConfusion hm
  split at hm
  · exact Option.noConfusion hm
  split at hm
  all_goals try exact Option.noConfusion hm
  split at hm
  all_goals try exact Option.noConfusion hm
  split at hm
  · exact Option.noConfusion hm
  split at hm
  all_goals try exact Option.noConfusion hm
  split at hm
  all_goals try exact Option.noConfusion hm
  rename_i hci hw2 xa c0 r4 heq4 halpha xb r7 heq6 xc r9 heq7 hiri xd r11 heq9 xe w5' heqT
  obtain ⟨rfl, rfl⟩ := Prod.mk.injEq _ _ _ _ ▸ Option.some.inj hm
  simp only [Bool.not_eq_true', Bool.not_eq_false] at hci halpha
  have hw5 : ∃ t, r11 = w5' ++ t ∧ ∀ x ∈ w5', isSpacePy x = true := by
    split at heqT
    · obtain rfl := Option.some.inj heqT
      exact ⟨_, (List.takeWhile_append_dropWhile (p := isSpacePy) (l := r11)).symm,
        fun x hx => List.mem_takeWhile_imp hx⟩
    · split at heqT
      · obtain rfl := Option.some.inj heqT
        refine ⟨(List.takeWhile isSpacePy r11).drop
            (lastNLIndex (List.takeWhile isSpacePy r11)) ++
            List.dropWhile isSpacePy r11, ?_, ?_⟩
        · rw [← List.append_assoc, List.take_append_drop,
            List.takeWhile_append_dropWhile]
        · intro x hx
          exact List.mem_takeWhile_imp (List.take_subset _ _ hx)
      · exact Option.noConfusion heqT
  obtain ⟨t, hr11, hw5sp⟩ := hw5
  constructor
  · refine ⟨t, ?_⟩
    conv_lhs => rw [← List.takeWhile_append_dropWhile (p := isSpacePy) (l := cs)]
    conv_lhs => rw [show List.dropWhile isSpacePy cs =
      List.take 6 (List.dropWhile isSpacePy cs) ++
        List.drop 6 (List.dropWhile isSpacePy cs) from
      (List.take_append_drop 6 _).symm]
    conv_lhs => rw [show List.drop 6 (List.dropWhile isSpacePy cs) =
      List.takeWhile isSpacePy (List.drop 6 (List.dropWhile isSpacePy cs)) ++
        List.dropWhile isSpacePy (List.drop 6 (List.dropWhile isSpacePy cs)) from
      (List.takeWhile_append_dropWhile ..).symm]
    conv_lhs => rw [heq4]
    conv_lhs => rw [show r4 = List.takeWhile isWordHyphen r4 ++
        List.dropWhile isWordHyphen r4 from
      (List.takeWhile_append_dropWhile ..).symm]
    conv_lhs => rw [show List.dropWhile isWordHyphen r4 =
      List.takeWhile isSpacePy (List.dropWhile isWordHyphen r4) ++
        List.dropWhile isSpacePy (List.dropWhile isWordHyphen r4) from
      (List.takeWhile_append_dropWhile ..).symm]
    conv_lhs => rw [heq6]
    conv_lhs => rw [show r7 = List.takeWhile isSpacePy r7 ++
        List.dropWhile isSpacePy r7 from
      (List.takeWhile_append_dropWhile ..).symm]
    conv_lhs => rw [heq7]
    conv_lhs => rw [show r9 = List.takeWhile (fun x => decide (x ≠ '>')) r9 ++
        List.dropWhile (fun x => decide (x ≠ '>')) r9 from
      (List.takeWhile_append_dropWhile ..).symm]
    conv_lhs => rw [heq9]
    conv_lhs => rw [hr11]
    simp [List.append_assoc]
  · have hsp : ∀ l : List Char, (List.takeWhile isSpacePy l).count c = 0 :=
      fun l => count_takeWhile_spaces l hc isSpacePy (fun _ h => h)
    have hkw : (List.take 6 (List.dropWhile isSpacePy cs)).count c = 0 :=
      count_eq_zero_of_forall_ne
        (fun x hx => lowerAscii_prefix_ne_brace (leadsWithCI_take hci x hx) hc)
    have hnm : (List.takeWhile isWordHyphen r4).count c = 0 :=
      count_eq_zero_of_forall_ne
        (fun x hx => isWordHyphen_ne_brace (List.mem_takeWhile_imp hx) hc)
    have hc0 : c0 ≠ c := isAsciiAlpha_ne_brace halpha hc
    have hw5c : w5'.count c = 0 := count_spaces_eq_zero hw5sp hc
    have hfil : (List.filter (fun x => decide (x ≠ ' '))
        (List.takeWhile (fun x => decide (x ≠ '>')) r9)).count c =
        (List.takeWhile (fun x => decide (x ≠ '>')) r9).count c := by
      refine List.count_filter ?_
      rcases hc with rfl | rfl <;> decide
    simp only [List.count_append, List.count_cons, hsp, hkw, hnm, hw5c, hfil,
      List.count_nil]
    rcases hc with rfl | rfl <;> simp [hc0]

theorem count_fixSpaces (l : List Char) {c : Char} (hc : IsBrace c) :
    (fixSpacesInPrefixIris l).count c = l.count c :=
  subScan_count _ c
    (fun fl cs consumed repl h => matchPrefixLine_spec hc fl cs consumed repl h)
    true l

theorem count_tidy (l : List Char) {c : Char} (hc : IsBrace c) :
    (tidy l).count c = l.count c := by
  unfold tidy
  rw [subScan_count _ c (fun fl cs con rep h => matchTidy3_spec hc fl cs con rep h),
      subScan_count _ c (fun fl cs con rep h => matchTidy2_spec hc fl cs con rep h),
      subScan_count _ c (fun fl cs con rep h => matchTidy1_spec hc fl cs con rep h)]

theorem splitPrologue_append (q : List Char) :
    (splitPrologue q).1 ++ (splitPrologue q).2 = q := by
  unfold splitPrologue
  split
  · exact List.take_append_drop _ _
  · simp

theorem count_norun_path (p b : List Char) {c : Char} (hc : IsBrace c) :
    (tidy (pyRStrip (fixSpacesInPrefixIris p) ++ ' ' :: pyLStrip b)).count c =
      p.count c + b.count c := by
  have hsp : (' ' : Char) ≠ c := isSpacePy_ne_brace (by decide) hc
  rw [count_tidy _ hc, List.count_append, List.count_cons,
    count_pyRStrip _ hc, count_fixSpaces _ hc, count_pyLStrip _ hc]
  simp [hsp]

/-- Balance of `rewriteL` on brace-balanced inputs: the no-run path and the
fallback path only apply count-preserving cleanups, and the main path is
guarded by the explicit brace-count check. -/
theorem rewriteL_balanced (q : List Char) (cands eps : PyVal)
    (hbal : q.count '{' = q.count '}') :
    (rewriteL q cands eps).count '{' = (rewriteL q cands eps).count '}' := by
  have hsplit := splitPrologue_append q
  have hql : ((splitPrologue q).1 ++ (splitPrologue q).2).count '{' = q.count '{' := by
    rw [hsplit]
  have hqr : ((splitPrologue q).1 ++ (splitPrologue q).2).count '}' = q.count '}' := by
    rw [hsplit]
  rw [List.count_append] at hql hqr
  simp only [rewriteL]
  split
  · rw [count_norun_path _ _ (Or.inl rfl), count_norun_path _ _ (Or.inr rfl)]
    omega
  · split
    all_goals split
    all_goals try (rename_i hne; exact not_ne_iff.mp hne)
    all_goals rw [count_fixSpaces _ (Or.inl rfl), count_fixSpaces _ (Or.inr rfl)]
    all_goals exact hbal

/-! ## Claim C1: structural balance -/

/-- C1, counterexample to the claim as stated: `rewrite` does NOT return a
brace-balanced string for *every* input — on the unbalanced input `"{"`
(no SPARQL form keyword, no generic triple) the no-run path returns the
input with only cosmetic cleanups, and its brace counts differ. -/
theorem C1_counterexample :
    ¬ ((rewrite "\x7b" (PyVal.dict []) (PyVal.dict [])).toList.count '{' =
       (rewrite "\x7b" (PyVal.dict []) (PyVal.dict [])).toList.count '}') := by
  decide

/-- C1 (amended): for every input query whose own `{`/`}` counts agree, the
string returned by `rewrite` has an equal number of `{` and `}` characters,
for every `CandidateMap` and `EndpointRegistry`.  (The original unrestricted
claim fails because both fallback paths return the lightly cleaned input,
which preserves the input's brace counts — balanced or not.) -/
theorem C1_rewrite_balanced (q : String) (cands eps : PyVal)
    (hbal : q.toList.count '{' = q.toList.count '}') :
    (rewrite q cands eps).toList.count '{' =
      (rewrite q cands eps).toList.count '}' :=
  rewriteL_balanced q.toList cands eps hbal

/-- C1, witness: the amended theorem applied at a concrete balanced query. -/
theorem C1_witness :
    "SELECT * WHERE \x7b ?a gen:p ?b . \x7d".toList.count '{' =
        "SELECT * WHERE \x7b ?a gen:p ?b . \x7d".toList.count '}' ∧
      (rewrite "SELECT * WHERE \x7b ?a gen:p ?b . \x7d" (PyVal.dict [])
            (PyVal.dict [])).toList.count '{' =
        (rewrite "SELECT * WHERE \x7b ?a gen:p ?b . \x7d" (PyVal.dict [])
            (PyVal.dict [])).toList.count '}' :=
  ⟨by decide, C1_rewrite_balanced "SELECT * WHERE \x7b ?a gen:p ?b . \x7d"
    (PyVal.dict []) (PyVal.dict []) (by decide)⟩

/-! ## Freshness of minted aliases (Claim C4 machinery) -/

theorem toDecGo_eq_digits : ∀ f n, n ≤ f →
    toDecGo f n = (Nat.digits 10 n).reverse.map Nat.digitChar := by
  intro f
  induction f with
  | zero =>
    intro n hn
    interval_cases n
    simp [toDecGo]
  | succ f ih =>
    intro n hn
    by_cases h0 : n = 0
    · subst h0; simp [toDecGo]
    · have hpos : 0 < n := Nat.pos_of_ne_zero h0
      rw [toDecGo, if_neg h0, Nat.digits_def' (by norm_num : (1:Nat) < 10) hpos]
      have hdiv : n / 10 ≤ f := by
        have := Nat.div_lt_self hpos (by norm_num : (1:Nat) < 10)
        omega
      rw [ih (n / 10) hdiv]
      simp

theorem digitChar_inj_lt : ∀ a < 10, ∀ b < 10,
    Nat.digitChar a = Nat.digitChar b → a = b := by decide

theorem map_digitChar_inj : ∀ l1 l2 : List Nat, (∀ x ∈ l1, x < 10) →
    (∀ x ∈ l2, x < 10) → l1.map Nat.digitChar = l2.map Nat.digitChar → l1 = l2 := by
  intro l1
  induction l1 with
  | nil => intro l2 _ _ h; cases l2 <;> simp_all
  | cons a as ih =>
    intro l2 h1 h2 h
    cases l2 with
    | nil => simp at h
    | cons b bs =>
      simp only [List.map_cons, List.cons.injEq] at h
      have ha := h1 a (by simp)
      have hb := h2 b (by simp)
      have : a = b := digitChar_inj_lt a ha b hb h.1
      subst this
      rw [ih bs (fun x hx => h1 x (by simp [hx])) (fun x hx => h2 x (by simp [hx])) h.2]

theorem natRepr_inj : ∀ m n : Nat, natRepr m = natRepr n → m = n := by
  have key : ∀ n : Nat, n ≠ 0 → natRepr n ≠ ['0'] := by
    intro n hn h
    rw [natRepr, if_neg hn, toDecGo_eq_digits n n le_rfl] at h
    have : (Nat.digits 10 n).reverse = [0] := by
      refine map_digitChar_inj _ _ ?_ ?_ ?_
      · intro x hx
        exact Nat.digits_lt_base (by norm_num) (List.mem_reverse.mp hx)
      · intro x hx; simp at hx; omega
      · simpa using h
    have hd : Nat.digits 10 n = [0] := by
      have := congrArg List.reverse this
      simpa using this
    have := Nat.ofDigits_digits 10 n
    rw [hd] at this
    simp [Nat.ofDigits] at this
    omega
  intro m n h
  by_cases hm : m = 0 <;> by_cases hn : n = 0
  · omega
  · subst hm
    exact absurd (by simpa [natRepr] using h.symm : natRepr n = ['0']) (key n hn)
  · subst hn
    exact absurd (by simpa [natRepr] using h : natRepr m = ['0']) (key m hm)
  · rw [natRepr, if_neg hm, natRepr, if_neg hn, toDecGo_eq_digits m m le_rfl,
      toDecGo_eq_digits n n le_rfl] at h
    have hrev : (Nat.digits 10 m).reverse = (Nat.digits 10 n).reverse :=
      map_digitChar_inj _ _
        (fun x hx => Nat.digits_lt_base (by norm_num) (List.mem_reverse.mp hx))
        (fun x hx => Nat.digits_lt_base (by norm_num) (List.mem_reverse.mp hx)) h
    have hd : Nat.digits 10 m = Nat.digits 10 n := List.reverse_inj.mp hrev
    have := congrArg (Nat.ofDigits 10) hd
    rwa [Nat.ofDigits_digits, Nat.ofDigits_digits] at this

theorem freshCand_inj (b tag : String) {i j : Nat}
    (h : freshCand b tag i = freshCand b tag j) : i = j := by
  have : ("?" ++ b ++ "_" ++ tag).toList ++ natRepr i =
      ("?" ++ b ++ "_" ++ tag).toList ++ natRepr j := by
    have h2 := congrArg String.toList h
    simpa [freshCand] using h2
  exact natRepr_inj i j (List.append_cancel_left this)

theorem freshVarGo_not_used (b tag : String) (used : List String) :
    ∀ fuel i, (∃ j, i ≤ j ∧ j < i + fuel ∧ freshCand b tag j ∉ used) →
      freshVarGo b tag used fuel i ∉ used := by
  intro fuel
  induction fuel with
  | zero =>
    intro i h
    exfalso
    obtain ⟨j, h1, h2, _⟩ := h
    omega
  | succ f ih =>
    intro i h
    rw [freshVarGo]
    by_cases hmem : memStr (freshCand b tag i) used = true
    · rw [if_pos hmem]
      refine ih (i + 1) ?_
      obtain ⟨j, hij, hlt, hfree⟩ := h
      refine ⟨j, ?_, by omega, hfree⟩
      rcases Nat.eq_or_lt_of_le hij with rfl | hlt2
      · exact absurd (List.elem_iff.mp hmem) hfree
      · omega
    · rw [if_neg hmem]
      intro hin
      exact hmem (List.elem_iff.mpr hin)

theorem freshVar_not_used (base : String) (used : List String) (tag : String) :
    (freshVar base used tag).1 ∉ used := by
  set b := (base.toList.dropWhile (· = '?')).asString with hb
  have hex : ∃ j, 1 ≤ j ∧ j < 1 + (used.length + 1) ∧
      freshCand b tag j ∉ used := by
    by_contra hall
    push_neg at hall
    have hsub : ((List.range' 1 (used.length + 1)).map (freshCand b tag)).toFinset ⊆
        used.toFinset := by
      intro x hx
      simp only [List.mem_toFinset, List.mem_map, List.mem_range'_1] at hx
      obtain ⟨j, ⟨hj1, hj2⟩, rfl⟩ := hx
      exact List.mem_toFinset.mpr (hall j hj1 (by omega))
    have hnodup : ((List.range' 1 (used.length + 1)).map (freshCand b tag)).Nodup := by
      refine List.Nodup.map_on ?_ (List.nodup_range' 1 (used.length + 1))
      intro x _ y _ hxy
      exact freshCand_inj b tag hxy
    have hcard1 : ((List.range' 1 (used.length + 1)).map (freshCand b tag)).toFinset.card =
        used.length + 1 := by
      rw [List.toFinset_card_of_nodup hnodup]
      simp
    have hcard2 := Finset.card_le_card hsub
    have hcard3 := List.toFinset_card_le used
    omega
  exact freshVarGo_not_used b tag used (used.length + 1) 1 hex

theorem alistGet_none_any {α : Type} (d : List (String × α)) (k : String)
    (h : alistGet d k = Option.none) : d.any (fun e => e.1 == k) = false := by
  unfold alistGet at h
  have hf : d.find? (fun e => e.1 == k) = Option.none := Option.map_eq_none.mp h
  rw [List.any_eq_false]
  intro x hx
  exact List.find?_eq_none.mp hf x hx

/-- All aliases minted during a call, in mint order: the values of every
segment's rename map. -/
def mintedAliases (segs : List Segment) : List String :=
  segs.flatMap (fun s => s.renames.map Prod.snd)

theorem mintRenames_spec (sv : List String) (rn : List (String × String))
    (used : List String) (hnd : used.Nodup) :
    ∃ nm, mintRenames sv rn used = (rn ++ nm, used ++ nm.map Prod.snd) ∧
      (used ++ nm.map Prod.snd).Nodup := by
  unfold mintRenames
  generalize sortStrs sv = vs
  induction vs generalizing rn used with
  | nil => exact ⟨[], by simp, by simpa⟩
  | cons v vs ih =>
    rw [List.foldl_cons]
    by_cases hv : (alistGet rn v).isSome
    · rw [if_pos hv]
      exact ih rn used hnd
    · rw [if_neg hv]
      have hget : alistGet rn v = Option.none := by
        cases h : alistGet rn v
        · rfl
        · rw [h] at hv; simp at hv
      have hset : alistSet rn v (freshVar v used "L").1 =
          rn ++ [(v, (freshVar v used "L").1)] := by
        rw [alistSet, if_neg]
        rw [alistGet_none_any rn v hget]
        simp
      have hfv2 : (freshVar v used "L").2 = used ++ [(freshVar v used "L").1] := rfl
      have hnotin : (freshVar v used "L").1 ∉ used := freshVar_not_used v used "L"
      have hnd' : (used ++ [(freshVar v used "L").1]).Nodup := by
        rw [List.nodup_append]
        exact ⟨hnd, List.nodup_singleton _, by
          intro x hx hx2
          simp only [List.mem_singleton] at hx2
          subst hx2
          exact hnotin hx⟩
      simp only [hset, hfv2]
      obtain ⟨nm, heq, hnm⟩ := ih (rn ++ [(v, (freshVar v used "L").1)])
        (used ++ [(freshVar v used "L").1]) hnd'
      refine ⟨(v, (freshVar v used "L").1) :: nm, ?_, ?_⟩
      · rw [heq]
        simp
      · simpa using hnm

/-- The per-call loop invariant behind alias distinctness: the used-name
set is duplicate-free, and every alias recorded on a segment so far is in
it (in order). -/
def SegMintInv (st : SegState) : Prop :=
  st.used.Nodup ∧ (mintedAliases (st.segments ++ [st.cur])).Sublist st.used

theorem mintedAliases_append (a b : List Segment) :
    mintedAliases (a ++ b) = mintedAliases a ++ mintedAliases b := by
  simp [mintedAliases]

theorem segStep_mint_inv (cm : CandMap) (eps : EpUrls) (st : SegState)
    (m : GMatch) (h : SegMintInv st) : SegMintInv (segStep cm eps st m) := by
  obtain ⟨hnd, hsub⟩ := h
  simp only [segStep]
  split
  · obtain ⟨nm, heq, hnm⟩ := mintRenames_spec
      (interStrs st.cur.vars (getVars m)) st.cur.renames st.used hnd
    have h1 : (mintRenames (interStrs st.cur.vars (getVars m))
        st.cur.renames st.used).1 = st.cur.renames ++ nm := by rw [heq]
    have h2 : (mintRenames (interStrs st.cur.vars (getVars m))
        st.cur.renames st.used).2 = st.used ++ nm.map Prod.snd := by rw [heq]
    constructor
    · show ((mintRenames (interStrs st.cur.vars (getVars m))
        st.cur.renames st.used).2).Nodup
      rw [h2]
      exact hnm
    · show (mintedAliases ((st.segments ++
          [{ st.cur with renames := (mintRenames (interStrs st.cur.vars (getVars m))
              st.cur.renames st.used).1 }]) ++
          [{ gmatches := [m], services := getMatchServices m cm eps,
             vars := getVars m, renames := [] }])).Sublist
        ((mintRenames (interStrs st.cur.vars (getVars m)) st.cur.renames st.used).2)
      rw [h1, h2]
      have hre : mintedAliases (st.segments ++ [st.cur]) =
          mintedAliases st.segments ++ st.cur.renames.map Prod.snd := by
        simp [mintedAliases]
      rw [hre] at hsub
      have hap := List.Sublist.append hsub (List.Sublist.refl (nm.map Prod.snd))
      simpa [mintedAliases, List.flatMap_append, List.map_append,
        List.append_assoc] using hap
  · constructor
    · exact hnd
    · simpa [mintedAliases_append, mintedAliases] using hsub

/-- C4 (amended), core statement: all aliases minted within one
`_segment_by_service_chains` call — the segmentation of one contiguous
run, the scope of the `used_vars` allocator — are pairwise distinct.
(The allocator does not persist across runs, and is not seeded from the
query's variables: both failure modes are exhibited by the
counterexample.) -/
theorem segmentChains_minted_nodup (ms : List GMatch) (cm : CandMap)
    (eps : EpUrls) :
    (mintedAliases (segmentByServiceChains ms cm eps).1).Nodup := by
  match ms with
  | [] => simp [segmentByServiceChains, mintedAliases]
  | m0 :: rest =>
    have hfold : ∀ (l : List GMatch) (st : SegState), SegMintInv st →
        SegMintInv (l.foldl (segStep cm eps) st) := by
      intro l
      induction l with
      | nil => exact fun st h => h
      | cons x xs ih => exact fun st h => ih _ (segStep_mint_inv cm eps st x h)
    have hinit : SegMintInv (initSegState cm eps m0) := by
      constructor
      · exact List.nodup_nil
      · simp [initSegState, mintedAliases]
    have := hfold rest (initSegState cm eps m0) hinit
    obtain ⟨hnd, hsub⟩ := this
    exact List.Sublist.nodup hsub hnd

/-! ## Claim C2: empty-candidate behaviour -/

/-- C2, evidence: with an *empty* CandidateMap the generic triple is not
passed through — `_build_segment_query` yields nothing for its segment and
`rewrite` splices the run's span out, so the triple text is deleted from
the query (against the spec's pass-through/no-op requirement). -/
theorem C2_empty_candidates_drops_triple :
    rewrite "SELECT * WHERE \x7b ?a gen:p ?b . \x7d" (PyVal.dict []) (PyVal.dict []) =
        "SELECT * WHERE \x7b \x7d" ∧
      ("SELECT * WHERE \x7b \x7d" : String) ≠ "SELECT * WHERE \x7b ?a gen:p ?b . \x7d" := by
  constructor
  · decide
  · decide

/-! ## Claim C3: how a joined match updates the segment -/

theorem memStr_iff {x : String} {l : List String} : memStr x l = true ↔ x ∈ l := by
  simp [memStr, List.elem_iff]

theorem mem_unionStrs {x : String} {a b : List String} :
    x ∈ unionStrs a b ↔ x ∈ a ∨ x ∈ b := by
  simp only [unionStrs, List.mem_append, List.mem_filter, Bool.not_eq_true]
  constructor
  · rintro (h | ⟨h, _⟩)
    · exact Or.inl h
    · exact Or.inr h
  · intro h
    by_cases ha : x ∈ a
    · exact Or.inl ha
    · rcases h with h | h
      · exact absurd h ha
      · refine Or.inr ⟨h, ?_⟩
        cases hm : memStr x a
        · rfl
        · exact absurd (memStr_iff.mp hm) ha

/-- C3, counterexample to the claim as stated: after a no-bridge join the
segment's `services` is the *union* of the old services with the match's
services (`services |= m_services` in the source), not the intersection
the claim describes. -/
theorem C3_counterexample :
    ((segmentByServiceChains
        [⟨0, 0, "?a", "gen:p", "?b"⟩, ⟨0, 0, "?b", "gen:q", "?c"⟩]
        [("gen:p", [("epA", [[("predicate", PyVal.str "http://x/p")]])]),
         ("gen:q", [("epA", [[("predicate", PyVal.str "http://x/q")]]),
                    ("epB", [[("predicate", PyVal.str "http://y/q")]])])]
        [("epA", "http://a/"), ("epB", "http://b/")]).1.map Segment.services =
      [["http://a/", "http://b/"]]) ∧
    interStrs ["http://a/"] ["http://a/", "http://b/"] = ["http://a/"] ∧
    (["http://a/", "http://b/"] : List String) ≠ ["http://a/"] := by
  refine ⟨by decide, by decide, by decide⟩

/-- C3 (amended): when the Segmenter adds the next match `m` to the current
segment (no bridge required), the segment's services set becomes the
*union* of the segment's services with `m`'s services, and its vars set
becomes the union with `m`'s vars. -/
theorem C3_segStep_no_bridge_union (cm : CandMap) (eps : EpUrls)
    (st : SegState) (m : GMatch)
    (hnb : (st.hasUnion && !(interStrs st.cur.vars (getVars m)).isEmpty ||
      ((interStrs st.cur.services (getMatchServices m cm eps)).isEmpty &&
        !(interStrs st.cur.vars (getVars m)).isEmpty)) = false) :
    (segStep cm eps st m).cur.services =
        unionStrs st.cur.services (getMatchServices m cm eps) ∧
      (segStep cm eps st m).cur.vars = unionStrs st.cur.vars (getVars m) ∧
      (∀ x, x ∈ (segStep cm eps st m).cur.services ↔
        x ∈ st.cur.services ∨ x ∈ getMatchServices m cm eps) ∧
      (∀ x, x ∈ (segStep cm eps st m).cur.vars ↔
        x ∈ st.cur.vars ∨ x ∈ getVars m) := by
  have hstep : (segStep cm eps st m).cur =
      { gmatches := st.cur.gmatches ++ [m]
        services := unionStrs st.cur.services (getMatchServices m cm eps)
        vars := unionStrs st.cur.vars (getVars m)
        renames := st.cur.renames } := by
    simp only [segStep, hnb]
    rfl
  refine ⟨by rw [hstep], by rw [hstep], ?_, ?_⟩
  · intro x
    rw [hstep]
    exact mem_unionStrs
  · intro x
    rw [hstep]
    exact mem_unionStrs

/-- C3, witness: the amended theorem at a concrete no-bridge step. -/
theorem C3_witness :
    ((initSegState
          [("gen:p", [("epA", [[("predicate", PyVal.str "http://x/p")]])]),
           ("gen:q", [("epA", [[("predicate", PyVal.str "http://x/q")]]),
                      ("epB", [[("predicate", PyVal.str "http://y/q")]])])]
          [("epA", "http://a/"), ("epB", "http://b/")]
          ⟨0, 0, "?a", "gen:p", "?b"⟩).hasUnion &&
        !(interStrs (initSegState
          [("gen:p", [("epA", [[("predicate", PyVal.str "http://x/p")]])]),
           ("gen:q", [("epA", [[("predicate", PyVal.str "http://x/q")]]),
                      ("epB", [[("predicate", PyVal.str "http://y/q")]])])]
          [("epA", "http://a/"), ("epB", "http://b/")]
          ⟨0, 0, "?a", "gen:p", "?b"⟩).cur.vars
            (getVars ⟨0, 0, "?b", "gen:q", "?c"⟩)).isEmpty ||
      ((interStrs (initSegState
          [("gen:p", [("epA", [[("predicate", PyVal.str "http://x/p")]])]),
           ("gen:q", [("epA", [[("predicate", PyVal.str "http://x/q")]]),
                      ("epB", [[("predicate", PyVal.str "http://y/q")]])])]
          [("epA", "http://a/"), ("epB", "http://b/")]
          ⟨0, 0, "?a", "gen:p", "?b"⟩).cur.services
            (getMatchServices ⟨0, 0, "?b", "gen:q", "?c"⟩
              [("gen:p", [("epA", [[("predicate", PyVal.str "http://x/p")]])]),
               ("gen:q", [("epA", [[("predicate", PyVal.str "http://x/q")]]),
                          ("epB", [[("predicate", PyVal.str "http://y/q")]])])]
              [("epA", "http://a/"), ("epB", "http://b/")])).isEmpty &&
        !(interStrs (initSegState
          [("gen:p", [("epA", [[("predicate", PyVal.str "http://x/p")]])]),
           ("gen:q", [("epA", [[("predicate", PyVal.str "http://x/q")]]),
                      ("epB", [[("predicate", PyVal.str "http://y/q")]])])]
          [("epA", "http://a/"), ("epB", "http://b/")]
          ⟨0, 0, "?a", "gen:p", "?b"⟩).cur.vars
            (getVars ⟨0, 0, "?b", "gen:q", "?c"⟩)).isEmpty)) = false ∧
    (segStep
        [("gen:p", [("epA", [[("predicate", PyVal.str "http://x/p")]])]),
         ("gen:q", [("epA", [[("predicate", PyVal.str "http://x/q")]]),
                    ("epB", [[("predicate", PyVal.str "http://y/q")]])])]
        [("epA", "http://a/"), ("epB", "http://b/")]
        (initSegState
          [("gen:p", [("epA", [[("predicate", PyVal.str "http://x/p")]])]),
           ("gen:q", [("epA", [[("predicate", PyVal.str "http://x/q")]]),
                      ("epB", [[("predicate", PyVal.str "http://y/q")]])])]
          [("epA", "http://a/"), ("epB", "http://b/")]
          ⟨0, 0, "?a", "gen:p", "?b"⟩)
        ⟨0, 0, "?b", "gen:q", "?c"⟩).cur.services =
      unionStrs
        (initSegState
          [("gen:p", [("epA", [[("predicate", PyVal.str "http://x/p")]])]),
           ("gen:q", [("epA", [[("predicate", PyVal.str "http://x/q")]]),
                      ("epB", [[("predicate", PyVal.str "http://y/q")]])])]
          [("epA", "http://a/"), ("epB", "http://b/")]
          ⟨0, 0, "?a", "gen:p", "?b"⟩).cur.services
        (getMatchServices ⟨0, 0, "?b", "gen:q", "?c"⟩
          [("gen:p", [("epA", [[("predicate", PyVal.str "http://x/p")]])]),
           ("gen:q", [("epA", [[("predicate", PyVal.str "http://x/q")]]),
                      ("epB", [[("predicate", PyVal.str "http://y/q")]])])]
          [("epA", "http://a/"), ("epB", "http://b/")]) :=
  ⟨by decide, (C3_segStep_no_bridge_union _ _ _ _ (by decide)).1⟩

/-! ## Claim C4: freshness of minted aliases -/

/-- C4, counterexample to the claim as stated: the allocator is seeded
*empty*, not from the query's variable names, and it is re-created for
every contiguous run (`used_vars = set()` inside
`_segment_by_service_chains`, which `rewrite` calls once per run).  First
conjuncts: the bridge over `?b` mints `?b_L1` while `?b_L1` already
occurs as an object variable of the same query.  Last conjunct: a
two-run query bridging `?b` in each run mints `?b_L1` twice within a
single rewrite call, so even cross-run alias distinctness fails. -/
theorem C4_counterexample :
    mintedAliases (segmentByServiceChains
        [⟨0, 0, "?a", "gen:p", "?b"⟩, ⟨0, 0, "?b", "gen:q", "?b_L1"⟩]
        [("gen:p", [("epA", [[("predicate", PyVal.str "http://x/p")]])]),
         ("gen:q", [("epB", [[("predicate", PyVal.str "http://y/q")]])])]
        [("epA", "http://a/"), ("epB", "http://b/")]).1 = ["?b_L1"] ∧
      "?b_L1" ∈ ([⟨0, 0, "?a", "gen:p", "?b"⟩,
        (⟨0, 0, "?b", "gen:q", "?b_L1"⟩ : GMatch)].flatMap getVars) ∧
      ((collectRuns
          "?a gen:p ?b . ?b gen:q ?c . FILTER(1) ?d gen:p ?b . ?b gen:q ?e .".toList
          (scanGen
            "?a gen:p ?b . ?b gen:q ?c . FILTER(1) ?d gen:p ?b . ?b gen:q ?e .".toList)).map
        (fun r => mintedAliases (segmentByServiceChains r.group
          [("gen:p", [("epA", [[("predicate", PyVal.str "http://x/p")]])]),
           ("gen:q", [("epB", [[("predicate", PyVal.str "http://y/q")]])])]
          [("epA", "http://a/"), ("epB", "http://b/")]).1) =
        [["?b_L1"], ["?b_L1"]]) := by
  refine ⟨by decide, by decide, by decide⟩

/-! ## Substring algebra for the bridge claims -/

theorem strToList_append (a b : String) : (a ++ b).toList = a.toList ++ b.toList := rfl

theorem leadsWith_iff {n h : List Char} :
    leadsWith n h = true ↔ ∃ post, h = n ++ post := by
  induction n generalizing h with
  | nil => simp [leadsWith]
  | cons a as ih =>
    cases h with
    | nil =>
      simp only [leadsWith, Bool.false_eq_true, false_iff]
      rintro ⟨post, hpost⟩
      simp at hpost
    | cons b bs =>
      simp only [leadsWith, Bool.and_eq_true, decide_eq_true_eq, ih]
      constructor
      · rintro ⟨rfl, post, rfl⟩
        exact ⟨post, rfl⟩
      · rintro ⟨post, hpost⟩
        simp only [List.cons_append, List.cons.injEq] at hpost
        exact ⟨hpost.1.symm, post, hpost.2⟩

theorem hasSub_iff {n h : List Char} :
    hasSub n h = true ↔ ∃ pre post, h = pre ++ n ++ post := by
  induction h with
  | nil =>
    simp only [hasSub, leadsWith_iff]
    constructor
    · rintro ⟨post, hpost⟩
      exact ⟨[], post, by simpa using hpost⟩
    · rintro ⟨pre, post, hpost⟩
      have h3 : pre = [] ∧ n = [] ∧ post = [] := by
        simpa [List.append_eq_nil] using hpost.symm
      exact ⟨[], by simp [h3.2.1]⟩
  | cons c cs ih =>
    simp only [hasSub, Bool.or_eq_true, leadsWith_iff, ih]
    constructor
    · rintro (⟨post, hpost⟩ | ⟨pre, post, hpost⟩)
      · exact ⟨[], post, by simpa using hpost⟩
      · exact ⟨c :: pre, post, by simp [hpost]⟩
    · rintro ⟨pre, post, hpost⟩
      cases pre with
      | nil => exact Or.inl ⟨post, by simpa using hpost⟩
      | cons p ps =>
        simp only [List.cons_append, List.cons.injEq] at hpost
        exact Or.inr ⟨ps, post, hpost.2⟩

theorem hasSub_append_left {n h1 : List Char} (h2 : List Char)
    (h : hasSub n h1 = true) : hasSub n (h1 ++ h2) = true := by
  obtain ⟨pre, post, rfl⟩ := hasSub_iff.mp h
  exact hasSub_iff.mpr ⟨pre, post ++ h2, by simp⟩

theorem hasSub_append_right (h1 : List Char) {n h2 : List Char}
    (h : hasSub n h2 = true) : hasSub n (h1 ++ h2) = true := by
  obtain ⟨pre, post, rfl⟩ := hasSub_iff.mp h
  exact hasSub_iff.mpr ⟨h1 ++ pre, post, by simp⟩

theorem hasSub_refl_append (n post : List Char) :
    hasSub n (n ++ post) = true :=
  hasSub_iff.mpr ⟨[], post, by simp⟩

theorem hasSub_refl (n : List Char) : hasSub n n = true :=
  hasSub_iff.mpr ⟨[], [], by simp⟩

theorem hasSub_chars {n h : List Char} (hs : hasSub n h = true) :
    ∀ x ∈ n, x ∈ h := by
  obtain ⟨pre, post, rfl⟩ := hasSub_iff.mp hs
  intro x hx
  simp [hx]

theorem hasSub_joinSep_of_mem {sep b : String} {bs : List String}
    (hb : b ∈ bs) : hasSub b.toList (joinSep sep bs).toList = true := by
  induction bs with
  | nil => simp at hb
  | cons x xs ih =>
    rcases List.mem_cons.mp hb with rfl | hb'
    · cases xs with
      | nil => exact hasSub_iff.mpr ⟨[], [], by simp [joinSep]⟩
      | cons y ys =>
        simp only [joinSep, strToList_append]
        exact hasSub_append_left _ (hasSub_append_left _ (hasSub_refl _))
    · cases xs with
      | nil => simp at hb'
      | cons y ys =>
        simp only [joinSep, strToList_append]
        exact hasSub_append_right _ (ih hb')

theorem hasSub_strJoin_of_mem {b : String} {bs : List String}
    (hb : b ∈ bs) : hasSub b.toList (strJoin bs).toList = true := by
  induction bs with
  | nil => simp at hb
  | cons x xs ih =>
    rcases List.mem_cons.mp hb with rfl | hb'
    · simp only [strJoin, strToList_append]
      exact hasSub_append_left _ (hasSub_refl _)
    · simp only [strJoin, strToList_append]
      exact hasSub_append_right _ (ih hb')

theorem mem_insertSorted {x y : String} {l : List String} :
    x ∈ insertSorted y l ↔ x = y ∨ x ∈ l := by
  induction l with
  | nil => simp [insertSorted]
  | cons a as ih =>
    simp only [insertSorted]
    split
    · simp
    · simp only [List.mem_cons, ih]
      tauto

theorem mem_sortStrs {x : String} {l : List String} :
    x ∈ sortStrs l ↔ x ∈ l := by
  induction l with
  | nil => simp [sortStrs]
  | cons a as ih =>
    simp only [sortStrs, mem_insertSorted, List.mem_cons, ih]

theorem sortStrs_ne_nil {l : List String} (h : l ≠ []) : sortStrs l ≠ [] := by
  cases l with
  | nil => exact absurd rfl h
  | cons a as =>
    simp only [sortStrs]
    cases hs : sortStrs as with
    | nil => simp [insertSorted]
    | cons b bs =>
      simp only [insertSorted]
      split <;> simp

/-! ## Closed form of `_build_bridge` (Claims C7/C8) -/

theorem bindsOf_cons_ne_empty (p : String × String) (ps : List (String × String)) :
    bindsOf (p :: ps) ≠ "" := by
  intro h
  have h2 := congrArg String.toList h
  have hB : ("BIND(".toList : List Char) ≠ [] := by decide
  cases ps with
  | nil =>
    simp only [bindsOf, List.map_cons, List.map_nil, joinSep, strToList_append] at h2
    simp only [show ("".toList : List Char) = [] from rfl,
      List.append_eq_nil] at h2
    exact hB h2.1.1.1.1
  | cons q qs =>
    simp only [bindsOf, List.map_cons, joinSep, strToList_append] at h2
    simp only [show ("".toList : List Char) = [] from rfl,
      List.append_eq_nil] at h2
    exact hB h2.1.1.1.1.1.1

theorem joinSep_append_singleton (sep b : String) :
    ∀ bs : List String, bs ≠ [] →
      joinSep sep (bs ++ [b]) = joinSep sep bs ++ sep ++ b := by
  intro bs
  induction bs with
  | nil => intro h; exact absurd rfl h
  | cons x xs ih =>
    intro _
    cases xs with
    | nil => simp [joinSep]
    | cons y ys =>
      have hih := ih (by simp)
      simp only [List.cons_append, joinSep, List.append_eq] at hih ⊢
      rw [hih]
      simp [String.append_assoc]

/-- The chosen bridge-service set: `L ∩ R` when non-empty, else `L ∪ R`. -/
def bridgeServicesOf (L R : List String) : List String :=
  if (interStrs L R).isEmpty then unionStrs L R else interStrs L R

theorem buildBridge_no_service (L R : List String)
    (mappings : List (String × String × String))
    (hp : bridgePairs mappings ≠ []) (hch : bridgeServicesOf L R = []) :
    buildBridge L R mappings = bindsOf (bridgePairs mappings) := by
  obtain ⟨p, ps, hps⟩ : ∃ p ps, bridgePairs mappings = p :: ps := by
    cases h : bridgePairs mappings with
    | nil => exact absurd h hp
    | cons p ps => exact ⟨p, ps, rfl⟩
  have hne := bindsOf_cons_ne_empty p ps
  rw [← hps] at hne
  simp only [buildBridge, bridgeServicesOf] at hch ⊢
  rw [if_neg (by simp [hps]), hch]
  simp only [sortStrs, List.map_nil, List.nil_append]
  rw [if_neg hne]

theorem buildBridge_with_services (L R : List String)
    (mappings : List (String × String × String))
    (hp : bridgePairs mappings ≠ []) (hch : bridgeServicesOf L R ≠ []) :
    buildBridge L R mappings =
      "\x7b \x7b " ++ joinSep " \x7d UNION \x7b "
          ((sortStrs (bridgeServicesOf L R)).map
            (svcIdentityBlock (bridgePairs mappings))) ++
        " \x7d UNION \x7b " ++ bindsOf (bridgePairs mappings) ++ " \x7d \x7d" := by
  obtain ⟨p, ps, hps⟩ : ∃ p ps, bridgePairs mappings = p :: ps := by
    cases h : bridgePairs mappings with
    | nil => exact absurd h hp
    | cons p ps => exact ⟨p, ps, rfl⟩
  have hne := bindsOf_cons_ne_empty p ps
  rw [← hps] at hne
  have hsort := sortStrs_ne_nil hch
  obtain ⟨x, xs, hx⟩ : ∃ x xs, sortStrs (bridgeServicesOf L R) = x :: xs := by
    cases h : sortStrs (bridgeServicesOf L R) with
    | nil => exact absurd h hsort
    | cons x xs => exact ⟨x, xs, rfl⟩
  simp only [buildBridge, bridgeServicesOf] at hx ⊢
  rw [if_neg (by simp [hps]), hx]
  rw [if_neg hne]
  simp only [List.map_cons, List.cons_append]
  cases hxs : xs.map (svcIdentityBlock (bridgePairs mappings)) with
  | nil =>
    simp [joinSep, String.append_assoc]
  | cons y ys =>
    rw [show svcIdentityBlock (bridgePairs mappings) x ::
        ((y :: ys) ++ [bindsOf (bridgePairs mappings)]) =
      (svcIdentityBlock (bridgePairs mappings) x :: y :: ys) ++
        [bindsOf (bridgePairs mappings)] from rfl,
      joinSep_append_singleton _ _ _ (by simp)]
    simp [String.append_assoc]

/-- C8: every non-empty bridge fragment ends with the `BIND(left AS right)`
fallback branch, combined by `UNION` with the per-service identity blocks,
and the per-service blocks use `L ∩ R` when non-empty, else `L ∪ R`. -/
theorem C8_buildBridge_structure (L R : List String)
    (mappings : List (String × String × String))
    (hp : bridgePairs mappings ≠ []) :
    (bridgeServicesOf L R = [] →
      buildBridge L R mappings = bindsOf (bridgePairs mappings)) ∧
    (bridgeServicesOf L R ≠ [] →
      buildBridge L R mappings =
        "\x7b \x7b " ++ joinSep " \x7d UNION \x7b "
            ((sortStrs (bridgeServicesOf L R)).map
              (svcIdentityBlock (bridgePairs mappings))) ++
          " \x7d UNION \x7b " ++ bindsOf (bridgePairs mappings) ++ " \x7d \x7d") ∧
    (∀ x, x ∈ bridgeServicesOf L R ↔
      (if (interStrs L R).isEmpty then x ∈ unionStrs L R else x ∈ interStrs L R)) := by
  refine ⟨buildBridge_no_service L R mappings hp,
    buildBridge_with_services L R mappings hp, ?_⟩
  intro x
  unfold bridgeServicesOf
  split <;> simp

/-- C8, witness: the structure theorem at a concrete bridge whose service
sets intersect. -/
theorem C8_witness :
    bridgePairs [("?x", "?x_L1", "?x")] ≠ [] ∧
    bridgeServicesOf ["u1"] ["u1", "u2"] ≠ [] ∧
    buildBridge ["u1"] ["u1", "u2"] [("?x", "?x_L1", "?x")] =
      "\x7b \x7b " ++ joinSep " \x7d UNION \x7b "
          ((sortStrs (bridgeServicesOf ["u1"] ["u1", "u2"])).map
            (svcIdentityBlock (bridgePairs [("?x", "?x_L1", "?x")]))) ++
        " \x7d UNION \x7b " ++ bindsOf (bridgePairs [("?x", "?x_L1", "?x")]) ++ " \x7d \x7d" :=
  ⟨by decide, by decide,
    (C8_buildBridge_structure ["u1"] ["u1", "u2"] [("?x", "?x_L1", "?x")]
      (by decide)).2.1 (by decide)⟩

/-! ## Claim C7: the bridge's identity predicate -/

theorem hasSub_trans {a b c : List Char} (h1 : hasSub a b = true)
    (h2 : hasSub b c = true) : hasSub a c = true := by
  obtain ⟨p1, q1, rfl⟩ := hasSub_iff.mp h1
  obtain ⟨p2, q2, rfl⟩ := hasSub_iff.mp h2
  exact hasSub_iff.mpr ⟨p2 ++ p1, q1 ++ q2, by simp⟩

/-- The two-direction `owl:sameAs` group a bridge emits for one
shared-variable pair. -/
def pairIdentityGroup (p : String × String) : String :=
  "\x7b " ++ p.1 ++ " " ++ OWL_SAMEAS ++ " " ++ p.2 ++ " \x7d UNION \x7b " ++
    p.2 ++ " " ++ OWL_SAMEAS ++ " " ++ p.1 ++ " \x7d"

theorem svcPiece_eq (p : String × String) :
    ("\x7b " ++ p.1 ++ " " ++ OWL_SAMEAS ++ " " ++ p.2 ++ " \x7d UNION \x7b " ++
      p.2 ++ " " ++ OWL_SAMEAS ++ " " ++ p.1 ++ " \x7d ") =
      pairIdentityGroup p ++ " " := by
  unfold pairIdentityGroup
  rw [show (" \x7d " : String) = " \x7d" ++ " " from by decide]
  simp [String.append_assoc]

theorem mem_dropWhile' {p : Char → Bool} {l : List Char} {x : Char}
    (h : x ∈ l.dropWhile p) : x ∈ l := (List.dropWhile_sublist p).subset h

theorem mem_pyStripChars {cset l : List Char} {x : Char}
    (h : x ∈ pyStripChars cset l) : x ∈ l := by
  simp only [pyStripChars, List.mem_reverse] at h
  have h1 : x ∈ (l.dropWhile (fun c => decide (c ∈ cset))).reverse :=
    mem_dropWhile' h
  exact mem_dropWhile' (List.mem_reverse.mp h1)

theorem mem_pyStrip {l : List Char} {x : Char} (h : x ∈ pyStrip l) : x ∈ l := by
  simp only [pyStrip, pyRStrip, pyLStrip, List.mem_reverse] at h
  have h1 : x ∈ (l.dropWhile isSpacePy).reverse := mem_dropWhile' h
  exact mem_dropWhile' (List.mem_reverse.mp h1)

theorem mem_sanitizeIri {l : List Char} {x : Char} (h : x ∈ sanitizeIri l) :
    x ∈ l ∨ x = '<' ∨ x = '>' := by
  simp only [sanitizeIri] at h
  split at h
  · simp only [List.cons_append, List.mem_cons, List.mem_append,
      List.mem_singleton] at h
    rcases h with rfl | h | rfl | h0
    · exact Or.inr (Or.inl rfl)
    · exact Or.inl (mem_pyStrip (List.mem_of_mem_drop
        (List.mem_of_mem_dropLast (List.mem_of_mem_filter h))))
    · exact Or.inr (Or.inr rfl)
    · exact absurd h0 (List.not_mem_nil x)
  · exact Or.inl (mem_pyStrip (List.mem_of_mem_filter h))

theorem mem_svcUri {svc : String} {x : Char} (h : x ∈ (svcUri svc).toList) :
    x ∈ svc.toList ∨ x = '<' ∨ x = '>' := by
  simp only [svcUri] at h
  exact mem_sanitizeIri (mem_pyStripChars h)

theorem mem_joinSep_decomp {sep : String} {bs : List String} {x : Char}
    (h : x ∈ (joinSep sep bs).toList) :
    (∃ b ∈ bs, x ∈ b.toList) ∨ x ∈ sep.toList := by
  induction bs with
  | nil => simp [joinSep] at h
  | cons b rest ih =>
    cases rest with
    | nil => exact Or.inl ⟨b, by simp, h⟩
    | cons c cs =>
      simp only [joinSep, strToList_append, List.mem_append] at h
      rcases h with (h | h) | h
      · exact Or.inl ⟨b, by simp, h⟩
      · exact Or.inr h
      · rcases ih h with ⟨b', hb', hx⟩ | h
        · exact Or.inl ⟨b', by simp [hb'], hx⟩
        · exact Or.inr h

theorem mem_strJoin_decomp {bs : List String} {x : Char}
    (h : x ∈ (strJoin bs).toList) : ∃ b ∈ bs, x ∈ b.toList := by
  induction bs with
  | nil => simp [strJoin] at h
  | cons b rest ih =>
    simp only [strJoin, strToList_append, List.mem_append] at h
    rcases h with h | h
    · exact ⟨b, by simp, h⟩
    · obtain ⟨b', hb', hx⟩ := ih h
      exact ⟨b', by simp [hb'], hx⟩

theorem mem_bridgeServicesOf {L R : List String} {y : String}
    (h : y ∈ bridgeServicesOf L R) : y ∈ L ++ R := by
  simp only [bridgeServicesOf] at h
  split at h
  · rcases mem_unionStrs.mp h with h | h <;> simp [h]
  · simp only [interStrs, List.mem_filter] at h
    simp [h.1]

/-- A superset of every literal character `_build_bridge` can emit on its
own (service/union/bind syntax and the `owl:sameAs` IRI). -/
def bridgeLitChars : List Char :=
  ("\x7b \x7b " ++ " \x7d UNION \x7b " ++ " \x7d \x7d" ++ "SERVICE <" ++ "> \x7b " ++ "\x7b " ++
    " \x7d " ++ "BIND(" ++ " AS " ++ ")" ++ " " ++ OWL_SAMEAS).toList

theorem lit_sub_bridge {w : String}
    (hw : hasSub w.toList bridgeLitChars = true) {y : Char}
    (hy : y ∈ w.toList) : y ∈ bridgeLitChars :=
  hasSub_chars hw y hy

theorem buildBridge_char_sources (L R : List String)
    (mappings : List (String × String × String)) (x : Char)
    (hx : x ∈ (buildBridge L R mappings).toList) :
    (∃ s ∈ L ++ R, x ∈ s.toList) ∨
      (∃ t ∈ mappings, x ∈ t.2.1.toList ∨ x ∈ t.2.2.toList) ∨
      x ∈ bridgeLitChars := by
  have hbinds : ∀ y : Char, y ∈ (bindsOf (bridgePairs mappings)).toList →
      (∃ t ∈ mappings, y ∈ t.2.1.toList ∨ y ∈ t.2.2.toList) ∨
        y ∈ bridgeLitChars := by
    intro y hy
    rcases mem_joinSep_decomp hy with ⟨b, hb, hyb⟩ | hy'
    · obtain ⟨p, hp, rfl⟩ := List.mem_map.mp hb
      obtain ⟨t, ht, rfl⟩ := List.mem_map.mp hp
      simp only [strToList_append, List.mem_append] at hyb
      rcases hyb with (((hl | hl) | hl) | hl) | hl
      · exact Or.inr (lit_sub_bridge (by decide) hl)
      · exact Or.inl ⟨t, ht, Or.inl hl⟩
      · exact Or.inr (lit_sub_bridge (by decide) hl)
      · exact Or.inl ⟨t, ht, Or.inr hl⟩
      · exact Or.inr (lit_sub_bridge (by decide) hl)
    · exact Or.inr (lit_sub_bridge (w := " ") (by decide) hy')
  have hsvcblk : ∀ svc : String, svc ∈ bridgeServicesOf L R →
      ∀ y : Char, y ∈ (svcIdentityBlock (bridgePairs mappings) svc).toList →
      (∃ s ∈ L ++ R, y ∈ s.toList) ∨
        (∃ t ∈ mappings, y ∈ t.2.1.toList ∨ y ∈ t.2.2.toList) ∨
        y ∈ bridgeLitChars := by
    intro svc hsvc y hy
    simp only [svcIdentityBlock, strToList_append, List.mem_append] at hy
    rcases hy with (((hl | hl) | hl) | hl) | hl
    · exact Or.inr (Or.inr (lit_sub_bridge (by decide) hl))
    · rcases mem_svcUri hl with h | rfl | rfl
      · exact Or.inl ⟨svc, mem_bridgeServicesOf hsvc, h⟩
      · exact Or.inr (Or.inr (by decide))
      · exact Or.inr (Or.inr (by decide))
    · exact Or.inr (Or.inr (lit_sub_bridge (by decide) hl))
    · obtain ⟨b, hb, hyb⟩ := mem_strJoin_decomp hl
      obtain ⟨p, hp, rfl⟩ := List.mem_map.mp hb
      obtain ⟨t, ht, rfl⟩ := List.mem_map.mp hp
      simp only [strToList_append, List.mem_append] at hyb
      rcases hyb with (((((((((((hl | hl) | hl) | hl) | hl) | hl) | hl) | hl) | hl) | hl) | hl) | hl) | hl
      all_goals first
        | exact Or.inr (Or.inl ⟨t, ht, Or.inl hl⟩)
        | exact Or.inr (Or.inl ⟨t, ht, Or.inr hl⟩)
        | exact Or.inr (Or.inr (lit_sub_bridge (w := "\x7b ") (by decide) hl))
        | exact Or.inr (Or.inr (lit_sub_bridge (w := " ") (by decide) hl))
        | exact Or.inr (Or.inr (lit_sub_bridge (w := OWL_SAMEAS) (by decide) hl))
        | exact Or.inr (Or.inr (lit_sub_bridge (w := " \x7d UNION \x7b ") (by decide) hl))
        | exact Or.inr (Or.inr (lit_sub_bridge (w := " \x7d ") (by decide) hl))
    · exact Or.inr (Or.inr (lit_sub_bridge (w := "\x7d") (by decide) hl))
  by_cases hp : bridgePairs mappings = []
  · rw [show buildBridge L R mappings = "" by simp [buildBridge, hp]] at hx
    simp at hx
  · by_cases hch : bridgeServicesOf L R = []
    · rw [buildBridge_no_service L R mappings hp hch] at hx
      exact Or.inr (hbinds x hx)
    · rw [buildBridge_with_services L R mappings hp hch] at hx
      simp only [strToList_append, List.mem_append] at hx
      rcases hx with (((hl | hl) | hl) | hl) | hl
      · exact Or.inr (Or.inr (lit_sub_bridge (w := "\x7b \x7b ") (by decide) hl))
      · rcases mem_joinSep_decomp hl with ⟨b, hb, hxb⟩ | hl'
        · obtain ⟨svc, hsvc, rfl⟩ := List.mem_map.mp hb
          exact hsvcblk svc (mem_sortStrs.mp hsvc) x hxb
        · exact Or.inr (Or.inr (lit_sub_bridge (w := " \x7d UNION \x7b ")
            (by decide) hl'))
      · exact Or.inr (Or.inr (lit_sub_bridge (w := " \x7d UNION \x7b ")
          (by decide) hl))
      · exact Or.inr (hbinds x hl)
      · exact Or.inr (Or.inr (lit_sub_bridge (w := " \x7d \x7d") (by decide) hl))

/-- C7, counterexample to the claim as stated: a non-empty bridge fragment
contains no `skos:exactMatch` branch at all — `_build_bridge` uses only
`owl:sameAs` (as its own docstring says). -/
theorem C7_counterexample :
    buildBridge ["http://a/"] ["http://b/"] [("?b", "?b_L1", "?b")] ≠ "" ∧
      hasSub "skos:exactMatch".toList
        (buildBridge ["http://a/"] ["http://b/"]
          [("?b", "?b_L1", "?b")]).toList = false := by
  exact ⟨by decide, by decide⟩

/-- C7 (amended): every bridge fragment tests the single identity predicate
`owl:sameAs` in both directions between the left and right alias — for each
chosen service and each shared-variable pair the fragment contains the
group `{ l owl:sameAs r } UNION { r owl:sameAs l }` — and no
`skos:exactMatch` branch is emitted (whenever the service URLs and aliases
themselves do not contain the letter `k`, the fragment has no `k` at all,
hence no `skos:exactMatch`). -/
theorem C7_bridge_sameAs_only (L R : List String)
    (mappings : List (String × String × String))
    (hp : bridgePairs mappings ≠ []) :
    (∀ p ∈ bridgePairs mappings, ∀ svc ∈ bridgeServicesOf L R,
      hasSub (pairIdentityGroup p).toList
        (buildBridge L R mappings).toList = true) ∧
    ((∀ s ∈ L ++ R, 'k' ∉ s.toList) →
      (∀ t ∈ mappings, 'k' ∉ t.2.1.toList ∧ 'k' ∉ t.2.2.toList) →
      hasSub "skos:exactMatch".toList
        (buildBridge L R mappings).toList = false) := by
  constructor
  · intro p hpmem svc hsvc
    have hch : bridgeServicesOf L R ≠ [] := by
      intro h
      rw [h] at hsvc
      simp at hsvc
    rw [buildBridge_with_services L R mappings hp hch]
    have h1 : hasSub (pairIdentityGroup p).toList
        ("\x7b " ++ p.1 ++ " " ++ OWL_SAMEAS ++ " " ++ p.2 ++ " \x7d UNION \x7b " ++
          p.2 ++ " " ++ OWL_SAMEAS ++ " " ++ p.1 ++ " \x7d ").toList = true := by
      rw [svcPiece_eq p, strToList_append]
      exact hasSub_append_left _ (hasSub_refl _)
    have h2 : ("\x7b " ++ p.1 ++ " " ++ OWL_SAMEAS ++ " " ++ p.2 ++
        " \x7d UNION \x7b " ++ p.2 ++ " " ++ OWL_SAMEAS ++ " " ++ p.1 ++ " \x7d ") ∈
        (bridgePairs mappings).map (fun q =>
          "\x7b " ++ q.1 ++ " " ++ OWL_SAMEAS ++ " " ++ q.2 ++ " \x7d UNION \x7b " ++
            q.2 ++ " " ++ OWL_SAMEAS ++ " " ++ q.1 ++ " \x7d ") :=
      List.mem_map_of_mem _ hpmem
    have h3 := hasSub_strJoin_of_mem h2
    have h4 : hasSub (strJoin ((bridgePairs mappings).map (fun q =>
        "\x7b " ++ q.1 ++ " " ++ OWL_SAMEAS ++ " " ++ q.2 ++ " \x7d UNION \x7b " ++
          q.2 ++ " " ++ OWL_SAMEAS ++ " " ++ q.1 ++ " \x7d "))).toList
        (svcIdentityBlock (bridgePairs mappings) svc).toList = true := by
      simp only [svcIdentityBlock, strToList_append]
      exact hasSub_append_left _ (hasSub_append_right _ (hasSub_refl _))
    have h5 : svcIdentityBlock (bridgePairs mappings) svc ∈
        (sortStrs (bridgeServicesOf L R)).map
          (svcIdentityBlock (bridgePairs mappings)) :=
      List.mem_map_of_mem _ (mem_sortStrs.mpr hsvc)
    have h6 := @hasSub_joinSep_of_mem " \x7d UNION \x7b " _ _ h5
    have h7 : hasSub (joinSep " \x7d UNION \x7b "
        ((sortStrs (bridgeServicesOf L R)).map
          (svcIdentityBlock (bridgePairs mappings)))).toList
        ("\x7b \x7b " ++ joinSep " \x7d UNION \x7b "
            ((sortStrs (bridgeServicesOf L R)).map
              (svcIdentityBlock (bridgePairs mappings))) ++
          " \x7d UNION \x7b " ++ bindsOf (bridgePairs mappings) ++ " \x7d \x7d").toList =
        true := by
      simp only [strToList_append]
      exact hasSub_append_left _ (hasSub_append_left _ (hasSub_append_left _
        (hasSub_append_right _ (hasSub_refl _))))
    exact hasSub_trans (hasSub_trans (hasSub_trans (hasSub_trans h1 h3) h4) h6) h7
  · intro hsvcs hmaps
    cases h' : hasSub "skos:exactMatch".toList (buildBridge L R mappings).toList with
    | false => rfl
    | true =>
      exfalso
      have hk : 'k' ∈ (buildBridge L R mappings).toList :=
        hasSub_chars h' 'k' (by decide)
      rcases buildBridge_char_sources L R mappings 'k' hk with
        ⟨s, hs, hks⟩ | ⟨t, ht, hkt⟩ | hlit
      · exact hsvcs s hs hks
      · rcases hkt with h1 | h2
        · exact (hmaps t ht).1 h1
        · exact (hmaps t ht).2 h2
      · exact absurd hlit (by decide)

/-- C7, witness: the amended theorem at a concrete bridge. -/
theorem C7_witness :
    bridgePairs [("?b", "?b_L1", "?b")] ≠ [] ∧
      hasSub (pairIdentityGroup ("?b_L1", "?b")).toList
        (buildBridge ["http://a/"] ["http://b/"]
          [("?b", "?b_L1", "?b")]).toList = true ∧
      hasSub "skos:exactMatch".toList
        (buildBridge ["http://a/"] ["http://b/"]
          [("?b", "?b_L1", "?b")]).toList = false :=
  ⟨by decide,
    (C7_bridge_sameAs_only ["http://a/"] ["http://b/"] [("?b", "?b_L1", "?b")]
      (by decide)).1 ("?b_L1", "?b") (by decide) "http://a/" (by decide),
    (C7_bridge_sameAs_only ["http://a/"] ["http://b/"] [("?b", "?b_L1", "?b")]
      (by decide)).2 (by decide) (by decide)⟩

/-! ## C10: endpoint ids that are themselves URLs -/

/-- `ep_urls.get(ep) or (ep if ep.startswith("http") else None)` on a
registry miss with an `http…` id resolves to the id itself. -/
theorem svcFor_miss_http {eps : EpUrls} {ep : String}
    (hmiss : alistGet eps ep = Option.none)
    (hhttp : strStartsWith ep "http" = true) :
    svcFor eps ep = some ep := by
  simp [svcFor, hmiss, hhttp]

/-- C10: when the endpoint id `ep` of a match's only candidate endpoint is
absent from the endpoint registry but starts with `http`,
`_get_match_services` uses `ep` itself as the service URL, and
`_build_segment_query` on the corresponding one-match segment emits a
single `SERVICE` block addressed at (the sanitized, bracket-stripped)
`ep`. -/
theorem C10_http_endpoint_id_direct (cm : CandMap) (eps : EpUrls) (m : GMatch)
    (ep : String) (c : CandDict) (pred : List Char)
    (hmiss : alistGet eps ep = Option.none)
    (hhttp : strStartsWith ep "http" = true)
    (hcand : lookupCand cm m.pred = some [(ep, [c])])
    (hpick : pickPredicateIri c = some pred) :
    getMatchServices m cm eps = [ep] ∧
    buildSegmentQuery
        { gmatches := [m], services := [ep], vars := getVars m, renames := [] }
        cm eps =
      some ("SERVICE <" ++ svcUri ep ++ "> \x7b " ++
        (m.subj ++ " " ++ pred.asString ++ " " ++ m.obj ++ " .") ++ " \x7d") := by
  have hsvc : svcFor eps ep = some ep := svcFor_miss_http hmiss hhttp
  have h1 : getMatchServices m cm eps = [ep] := by
    simp [getMatchServices, hcand, hpick, hsvc, addStr, memStr]
  refine ⟨h1, ?_⟩
  have h2 : serviceTriplesOf
      { gmatches := [m], services := [ep], vars := getVars m, renames := [] }
      cm eps =
      [(ep, [m.subj ++ " " ++ pred.asString ++ " " ++ m.obj ++ " ."])] := by
    simp [serviceTriplesOf, segTriplesFor, sortStrs, insertSorted, h1, memStr,
      alistGet, hcand, findTripleForSvc, hsvc, hpick, dedupPreserve]
  simp [buildSegmentQuery, h2, sortStrs, insertSorted, alistGet, joinSep]

/-- C10, witness: a concrete registry miss on an `http` endpoint id. -/
theorem C10_witness :
    (alistGet ([] : EpUrls) "http://ex.org/sparql" = Option.none ∧
     strStartsWith "http://ex.org/sparql" "http" = true ∧
     lookupCand [("gen:partOf", [("http://ex.org/sparql",
         [[("predicate", PyVal.str "http://ex.org/partOf")]])])] "gen:partOf" =
       some [("http://ex.org/sparql",
         [[("predicate", PyVal.str "http://ex.org/partOf")]])] ∧
     pickPredicateIri [("predicate", PyVal.str "http://ex.org/partOf")] =
       some "<http://ex.org/partOf>".toList) ∧
    (getMatchServices ⟨0, 1, "?s", "gen:partOf", "?o"⟩
        [("gen:partOf", [("http://ex.org/sparql",
          [[("predicate", PyVal.str "http://ex.org/partOf")]])])] [] =
      ["http://ex.org/sparql"] ∧
     buildSegmentQuery
        { gmatches := [⟨0, 1, "?s", "gen:partOf", "?o"⟩]
          services := ["http://ex.org/sparql"]
          vars := getVars ⟨0, 1, "?s", "gen:partOf", "?o"⟩
          renames := [] }
        [("gen:partOf", [("http://ex.org/sparql",
          [[("predicate", PyVal.str "http://ex.org/partOf")]])])] [] =
      some ("SERVICE <" ++ svcUri "http://ex.org/sparql" ++ "> \x7b " ++
        ("?s" ++ " " ++ "<http://ex.org/partOf>".toList.asString ++ " " ++
          "?o" ++ " .") ++ " \x7d")) :=
  ⟨⟨rfl, rfl, rfl, rfl⟩,
    C10_http_endpoint_id_direct
      [("gen:partOf", [("http://ex.org/sparql",
        [[("predicate", PyVal.str "http://ex.org/partOf")]])])] []
      ⟨0, 1, "?s", "gen:partOf", "?o"⟩ "http://ex.org/sparql"
      [("predicate", PyVal.str "http://ex.org/partOf")]
      "<http://ex.org/partOf>".toList rfl rfl rfl rfl⟩

/-! ## C6: single-endpoint determinism -/

/-- C6, counterexample: in spec scenario A every generic predicate
resolves to exactly one endpoint (`gen:partOf` only via `epA`,
`gen:describedBy` only via `epB`), yet the rewritten query contains both a
`BIND(` fragment and the `UNION` keyword, because the two triples share
`?b` on disjoint endpoint sets and are bridged. -/
theorem C6_counterexample :
    (∀ m ∈ scanGen
        "SELECT * WHERE \x7b ?a gen:partOf ?b . ?b gen:describedBy ?c . \x7d".toList,
      (getMatchServices m
        (normalizeCandidates (PyVal.dict
          [("gen:partOf", PyVal.dict [("epA", PyVal.list
              [PyVal.dict [("predicate", PyVal.str "<http://x/partOf>")]])]),
           ("gen:describedBy", PyVal.dict [("epB", PyVal.list
              [PyVal.dict [("predicate", PyVal.str "<http://y/desc>")]])])]))
        (endpointLookup (PyVal.dict
          [("epA", PyVal.str "http://a.example/sparql"),
           ("epB", PyVal.str "http://b.example/sparql")]))).length = 1) ∧
    strHasSub
      (rewrite "SELECT * WHERE \x7b ?a gen:partOf ?b . ?b gen:describedBy ?c . \x7d"
        (PyVal.dict
          [("gen:partOf", PyVal.dict [("epA", PyVal.list
              [PyVal.dict [("predicate", PyVal.str "<http://x/partOf>")]])]),
           ("gen:describedBy", PyVal.dict [("epB", PyVal.list
              [PyVal.dict [("predicate", PyVal.str "<http://y/desc>")]])])])
        (PyVal.dict
          [("epA", PyVal.str "http://a.example/sparql"),
           ("epB", PyVal.str "http://b.example/sparql")]))
      "BIND(" = true ∧
    strHasSub
      (rewrite "SELECT * WHERE \x7b ?a gen:partOf ?b . ?b gen:describedBy ?c . \x7d"
        (PyVal.dict
          [("gen:partOf", PyVal.dict [("epA", PyVal.list
              [PyVal.dict [("predicate", PyVal.str "<http://x/partOf>")]])]),
           ("gen:describedBy", PyVal.dict [("epB", PyVal.list
              [PyVal.dict [("predicate", PyVal.str "<http://y/desc>")]])])])
        (PyVal.dict
          [("epA", PyVal.str "http://a.example/sparql"),
           ("epB", PyVal.str "http://b.example/sparql")]))
      "UNION" = true := by
  refine ⟨by decide, by decide, by decide⟩

/-- One segmenter step on a match served by the same single endpoint as
the current segment keeps the segment on that endpoint, mints no bridge,
closes no segment and keeps `has_union` false. -/
theorem segStep_uniform (cm : CandMap) (eps : EpUrls) (u : String)
    (st : SegState) (m : GMatch)
    (hm : getMatchServices m cm eps = [u])
    (hcur : st.cur.services = [u]) (hU : st.hasUnion = false) :
    (segStep cm eps st m).cur.services = [u] ∧
    (segStep cm eps st m).hasUnion = false ∧
    (segStep cm eps st m).segments = st.segments ∧
    (segStep cm eps st m).bridges = st.bridges := by
  have hinter : interStrs st.cur.services (getMatchServices m cm eps) = [u] := by
    rw [hcur, hm]; simp [interStrs, memStr]
  have hunion : unionStrs st.cur.services (getMatchServices m cm eps) = [u] := by
    rw [hcur, hm]; simp [unionStrs, memStr]
  simp [segStep, hm, hcur, hU, hinter, hunion, interStrs, unionStrs, memStr]

/-- Folding the segmenter step over matches all served by the same single
endpoint `u` never branches: no segment is closed, no bridge is minted,
and the current segment stays on `[u]`. -/
theorem chainsUniform (cm : CandMap) (eps : EpUrls) (u : String) :
    ∀ (ms : List GMatch) (st : SegState),
      (∀ m ∈ ms, getMatchServices m cm eps = [u]) →
      st.cur.services = [u] → st.hasUnion = false →
      (ms.foldl (segStep cm eps) st).cur.services = [u] ∧
      (ms.foldl (segStep cm eps) st).hasUnion = false ∧
      (ms.foldl (segStep cm eps) st).segments = st.segments ∧
      (ms.foldl (segStep cm eps) st).bridges = st.bridges := by
  intro ms
  induction ms with
  | nil => intro st _ h1 h2; exact ⟨h1, h2, rfl, rfl⟩
  | cons m rest ih =>
    intro st hall h1 h2
    have hm := hall m (by simp)
    have hs := segStep_uniform cm eps u st m hm h1 h2
    have hrec := ih (segStep cm eps st m)
      (fun x hx => hall x (by simp [hx])) hs.1 hs.2.1
    exact ⟨hrec.1, hrec.2.1, hrec.2.2.1.trans hs.2.2.1,
      hrec.2.2.2.trans hs.2.2.2⟩

/-- A segment living on a single service `u` is built into at most one
`SERVICE` block, addressed at `u`, with no `UNION` wrapper. -/
theorem buildSegmentQuery_single_service (seg : Segment) (cm : CandMap)
    (eps : EpUrls) (u : String) (hs : seg.services = [u]) :
    buildSegmentQuery seg cm eps = Option.none ∨
    ∃ inner, buildSegmentQuery seg cm eps =
      some ("SERVICE <" ++ svcUri u ++ "> \x7b " ++ inner ++ " \x7d") := by
  have hsrv : serviceTriplesOf seg cm eps =
      if (segTriplesFor seg cm eps u).isEmpty then []
      else [(u, dedupPreserve (segTriplesFor seg cm eps u))] := by
    simp [serviceTriplesOf, hs, sortStrs, insertSorted]
  cases hT : (segTriplesFor seg cm eps u).isEmpty with
  | true => left; simp [buildSegmentQuery, hsrv, hT]
  | false =>
    right
    refine ⟨joinSep " " (dedupPreserve (segTriplesFor seg cm eps u)), ?_⟩
    simp [buildSegmentQuery, hsrv, hT, sortStrs, insertSorted, alistGet]

/-- C6 (amended): if every match of a run is served by exactly the same
single endpoint `u`, the segmenter produces no bridge at all (hence no
`BIND(… AS …)` fragment), every produced segment lives on `[u]` alone,
and the block builder turns each such segment into at most one `SERVICE`
block addressed at `u`, never a `{ { … } UNION { … } }` group. -/
theorem C6_same_single_endpoint_plain (ms : List GMatch) (cm : CandMap)
    (eps : EpUrls) (u : String)
    (hall : ∀ m ∈ ms, getMatchServices m cm eps = [u]) :
    (segmentByServiceChains ms cm eps).2 = [] ∧
    ∀ seg ∈ (segmentByServiceChains ms cm eps).1,
      seg.services = [u] ∧
      (buildSegmentQuery seg cm eps = Option.none ∨
        ∃ inner, buildSegmentQuery seg cm eps =
          some ("SERVICE <" ++ svcUri u ++ "> \x7b " ++ inner ++ " \x7d")) := by
  cases ms with
  | nil =>
    exact ⟨rfl, fun seg h => absurd h (List.not_mem_nil _)⟩
  | cons m0 rest =>
    have hm0 := hall m0 (by simp)
    have hinit1 : (initSegState cm eps m0).cur.services = [u] := by
      simp [initSegState, hm0]
    have hinit2 : (initSegState cm eps m0).hasUnion = false := by
      simp [initSegState, hm0]
    have hc := chainsUniform cm eps u rest (initSegState cm eps m0)
      (fun x hx => hall x (by simp [hx])) hinit1 hinit2
    have hseg0 : (initSegState cm eps m0).segments = [] := rfl
    have hbr0 : (initSegState cm eps m0).bridges = [] := rfl
    constructor
    · show (rest.foldl (segStep cm eps) (initSegState cm eps m0)).bridges = []
      exact hc.2.2.2.trans hbr0
    · intro seg hmem
      have hsegs : (segmentByServiceChains (m0 :: rest) cm eps).1 =
          [(rest.foldl (segStep cm eps) (initSegState cm eps m0)).cur] := by
        show (rest.foldl (segStep cm eps) (initSegState cm eps m0)).segments ++
            [(rest.foldl (segStep cm eps) (initSegState cm eps m0)).cur] = _
        rw [hc.2.2.1.trans hseg0]
        rfl
      rw [hsegs] at hmem
      have hseg : seg = (rest.foldl (segStep cm eps) (initSegState cm eps m0)).cur := by
        simpa using hmem
      have hsvc : seg.services = [u] := by rw [hseg]; exact hc.1
      exact ⟨hsvc, buildSegmentQuery_single_service seg cm eps u hsvc⟩

/-- C6, witness: spec scenario B (both predicates only via `epA`). -/
theorem C6_witness :
    (∀ m ∈ [(⟨0, 1, "?a", "gen:partOf", "?b"⟩ : GMatch),
            ⟨2, 3, "?b", "gen:describedBy", "?c"⟩],
      getMatchServices m
        [("gen:partOf", [("epA",
            [[("predicate", PyVal.str "<http://x/partOf>")]])]),
         ("gen:describedBy", [("epA",
            [[("predicate", PyVal.str "<http://y/desc>")]])])]
        [("epA", "http://a.example/sparql")] = ["http://a.example/sparql"]) ∧
    (segmentByServiceChains
        [⟨0, 1, "?a", "gen:partOf", "?b"⟩, ⟨2, 3, "?b", "gen:describedBy", "?c"⟩]
        [("gen:partOf", [("epA",
            [[("predicate", PyVal.str "<http://x/partOf>")]])]),
         ("gen:describedBy", [("epA",
            [[("predicate", PyVal.str "<http://y/desc>")]])])]
        [("epA", "http://a.example/sparql")]).2 = [] :=
  ⟨by decide,
    (C6_same_single_endpoint_plain
      [⟨0, 1, "?a", "gen:partOf", "?b"⟩, ⟨2, 3, "?b", "gen:describedBy", "?c"⟩]
      [("gen:partOf", [("epA",
          [[("predicate", PyVal.str "<http://x/partOf>")]])]),
       ("gen:describedBy", [("epA",
          [[("predicate", PyVal.str "<http://y/desc>")]])])]
      [("epA", "http://a.example/sparql")] "http://a.example/sparql"
      (by decide)).1⟩

/-! ## C9: the scanner and `;`-separated predicate chains -/

/-- A successful `parseVarTok` token starts with `?`. -/
theorem parseVarTok_shape {cs tok r : List Char}
    (h : parseVarTok cs = some (tok, r)) : ∃ t, tok = '?' :: t := by
  unfold parseVarTok at h
  split at h
  · split at h
    · injection h with h2
      exact ⟨_, (congrArg Prod.fst h2).symm⟩
    · exact Option.noConfusion h
  · exact Option.noConfusion h

/-- A successful `parseIriTok` token starts with `<`. -/
theorem parseIriTok_shape {cs tok r : List Char}
    (h : parseIriTok cs = some (tok, r)) : ∃ t, tok = '<' :: t := by
  unfold parseIriTok at h
  split at h
  · split at h
    · dsimp only [] at h
      split at h
      · exact Option.noConfusion h
      · injection h with h2
        exact ⟨_, (congrArg Prod.fst h2).symm⟩
    · dsimp only [] at h
      split at h
      · exact Option.noConfusion h
      · exact Option.noConfusion h
  · exact Option.noConfusion h

/-- The subject alternation yields a token starting with `?` or `<`. -/
theorem parseSubjTok_shape {cs tok r : List Char}
    (h : parseSubjTok cs = some (tok, r)) :
    (∃ t, tok = '?' :: t) ∨ (∃ t, tok = '<' :: t) := by
  unfold parseSubjTok at h
  split at h
  · rename_i pr heq
    injection h with h2
    exact Or.inl (parseVarTok_shape (h2 ▸ heq))
  · exact Or.inr (parseIriTok_shape h)

/-- `(c :: t).asString` starts with the one-character string of `c`. -/
theorem startsWith_asString_cons (c : Char) (t : List Char) :
    strStartsWith ((c :: t).asString) ([c].asString) = true := by
  show leadsWith [c] (c :: t) = true
  simp [leadsWith]

/-- The subject group of an anchored `_RE_GEN_TRIPLE` match is a variable
or IRI token of its own (parsed at the match site, never inherited from
an earlier triple head). -/
theorem matchGenAt_subj {cs : List Char} {k : Nat} {subj pred obj : String}
    (hm : matchGenAt cs = some (k, subj, pred, obj)) :
    strStartsWith subj "?" = true ∨ strStartsWith subj "<" = true := by
  unfold matchGenAt at hm
  cases heq : parseSubjTok cs with
  | none => rw [heq] at hm; exact Option.noConfusion hm
  | some pr =>
    obtain ⟨tok, r1⟩ := pr
    rw [heq] at hm
    dsimp only [] at hm
    by_cases h1 : (r1.takeWhile isSpacePy).isEmpty = true
    · rw [if_pos h1] at hm; exact Option.noConfusion hm
    · rw [if_neg h1] at hm
      cases heq2 : parsePredTok (r1.dropWhile isSpacePy) with
      | none => rw [heq2] at hm; exact Option.noConfusion hm
      | some pr2 =>
        obtain ⟨ptok, r2⟩ := pr2
        rw [heq2] at hm
        dsimp only [] at hm
        by_cases h2 : (r2.takeWhile isSpacePy).isEmpty = true
        · rw [if_pos h2] at hm; exact Option.noConfusion hm
        · rw [if_neg h2] at hm
          cases heq3 : parseObjTok (r2.dropWhile isSpacePy) with
          | none => rw [heq3] at hm; exact Option.noConfusion hm
          | some pr3 =>
            obtain ⟨otok, r3⟩ := pr3
            rw [heq3] at hm
            dsimp only [] at hm
            injection hm with hq
            have hsub : tok.asString = subj := congrArg (fun q => q.2.1) hq
            rcases parseSubjTok_shape heq with ⟨t, rfl⟩ | ⟨t, rfl⟩
            · exact Or.inl (hsub ▸ startsWith_asString_cons '?' t)
            · exact Or.inr (hsub ▸ startsWith_asString_cons '<' t)

/-- Every match the scanner emits carries a self-parsed subject token. -/
theorem scanGenGo_subj : ∀ (f : Nat) (cs : List Char) (pos : Nat)
    (m : GMatch), m ∈ scanGenGo f cs pos →
    strStartsWith m.subj "?" = true ∨ strStartsWith m.subj "<" = true := by
  intro f
  induction f with
  | zero => intro cs pos m hm; exact absurd hm (List.not_mem_nil m)
  | succ f ih =>
    intro cs pos m hm
    cases cs with
    | nil => exact absurd hm (List.not_mem_nil m)
    | cons c cs' =>
      rw [scanGenGo] at hm
      cases hga : matchGenAt (c :: cs') with
      | none => rw [hga] at hm; exact ih cs' (pos + 1) m hm
      | some q =>
        obtain ⟨k, subj, pred, obj⟩ := q
        cases k with
        | zero => rw [hga] at hm; exact ih cs' (pos + 1) m hm
        | succ k' =>
          rw [hga] at hm
          rcases List.mem_cons.mp hm with rfl | hm2
          · exact matchGenAt_subj hga
          · exact ih _ _ m hm2

/-- C9, counterexample: in `?s gen:a ?x ; gen:b ?y .` only `gen:a` is
scanned; the `;`-continuation `gen:b ?y` yields no match. -/
theorem C9_counterexample :
    (scanGen "?s gen:a ?x ; gen:b ?y .".toList).map (fun m => m.pred) =
      ["gen:a"] := by decide

/-- C9 (amended): `_RE_GEN_TRIPLE` has no `;`-continuation rule: every
match the TripleScanner emits parses a full `SUBJ PRED OBJ` sequence at
its own site, its subject a variable (`?…`) or IRI (`<…>`) token, so a
generic predicate appearing as a `;`-continuation (with no subject token
before it) is never scanned. -/
theorem C9_scanner_selfcontained_subject (body : List Char) (m : GMatch)
    (hm : m ∈ scanGen body) :
    strStartsWith m.subj "?" = true ∨ strStartsWith m.subj "<" = true :=
  scanGenGo_subj body.length body 0 m hm

/-- C9, witness: the single match of the counterexample body, whose
subject is the variable token `?s`. -/
theorem C9_witness :
    (⟨0, 11, "?s", "gen:a", "?x"⟩ : GMatch) ∈
      scanGen "?s gen:a ?x ; gen:b ?y .".toList ∧
    (strStartsWith "?s" "?" = true ∨ strStartsWith "?s" "<" = true) :=
  ⟨by decide,
    C9_scanner_selfcontained_subject "?s gen:a ?x ; gen:b ?y .".toList
      ⟨0, 11, "?s", "gen:a", "?x"⟩ (by decide)⟩

/-! ## C5: OPTIONAL isolation via contiguous runs -/

/-- The gap structure `_collect_contiguous_runs` maintains: each absorbed
match is separated from the previous end offset by whitespace only. -/
def runGapsWS (body : List Char) : Nat → List GMatch → Prop
  | _, [] => True
  | e, m :: rest => gapWS body e m.mstart = true ∧ runGapsWS body m.mstop rest

theorem splitRun_eq (body : List Char) (e : Nat) (n : GMatch)
    (rest : List GMatch) :
    splitRun body e (n :: rest) =
      if gapWS body e n.mstart then
        (n :: (splitRun body n.mstop rest).1,
          (splitRun body n.mstop rest).2.1, (splitRun body n.mstop rest).2.2)
      else ([], e, n :: rest) := by
  rw [splitRun]

/-- The matches `splitRun` absorbs are whitespace-chained from the start
offset, and together with the remainder they reconstitute the input. -/
theorem splitRun_spec (body : List Char) : ∀ (ms : List GMatch) (e : Nat),
    runGapsWS body e (splitRun body e ms).1 ∧
    (splitRun body e ms).1 ++ (splitRun body e ms).2.2 = ms := by
  intro ms
  induction ms with
  | nil => intro e; exact ⟨trivial, rfl⟩
  | cons n rest ih =>
    intro e
    rw [splitRun_eq]
    by_cases hg : gapWS body e n.mstart = true
    · rw [if_pos hg]
      refine ⟨⟨hg, (ih n.mstop).1⟩, ?_⟩
      show n :: ((splitRun body n.mstop rest).1 ++ (splitRun body n.mstop rest).2.2) =
        n :: rest
      rw [(ih n.mstop).2]
    · rw [if_neg hg]
      exact ⟨trivial, rfl⟩

/-- Shape of every run: a head match followed by its whitespace-chained
tail, and the group is a sublist of the scanned matches. -/
theorem collectRunsGo_spec (body : List Char) : ∀ (f : Nat) (ms : List GMatch)
    (r : Run), r ∈ collectRunsGo body f ms →
    (∃ m tail, r.group = m :: tail ∧ runGapsWS body m.mstop tail) ∧
    r.group.Sublist ms := by
  intro f
  induction f with
  | zero => intro ms r hr; exact absurd hr (List.not_mem_nil r)
  | succ f ih =>
    intro ms r hr
    cases ms with
    | nil => exact absurd hr (List.not_mem_nil r)
    | cons m rest =>
      rw [collectRunsGo] at hr
      rcases List.mem_cons.mp hr with rfl | hr2
      · constructor
        · exact ⟨m, (splitRun body m.mstop rest).1, rfl,
            (splitRun_spec body rest m.mstop).1⟩
        · show (m :: (splitRun body m.mstop rest).1).Sublist (m :: rest)
          refine List.Sublist.cons₂ m ?_
          conv_rhs => rw [← (splitRun_spec body rest m.mstop).2]
          exact List.sublist_append_left _ _
      · obtain ⟨hex, hsub⟩ := ih (splitRun body m.mstop rest).2.2 r hr2
        refine ⟨hex, hsub.trans (List.Sublist.trans ?_
          (List.sublist_cons_self m rest))⟩
        conv_rhs => rw [← (splitRun_spec body rest m.mstop).2]
        exact List.sublist_append_right _ _

theorem collectRuns_spec (body : List Char) (ms : List GMatch) (r : Run)
    (hr : r ∈ collectRuns body ms) :
    (∃ m tail, r.group = m :: tail ∧ runGapsWS body m.mstop tail) ∧
    r.group.Sublist ms :=
  collectRunsGo_spec body ms.length ms r hr

/-- Every scanned match starts at or after the scan position. -/
theorem scanGenGo_mstart_ge : ∀ (f : Nat) (cs : List Char) (pos : Nat),
    ∀ m ∈ scanGenGo f cs pos, pos ≤ m.mstart := by
  intro f
  induction f with
  | zero => intro cs pos m hm; exact absurd hm (List.not_mem_nil m)
  | succ f ih =>
    intro cs pos m hm
    cases cs with
    | nil => exact absurd hm (List.not_mem_nil m)
    | cons c cs2 =>
      rw [scanGenGo] at hm
      cases hga : matchGenAt (c :: cs2) with
      | none =>
        rw [hga] at hm
        exact Nat.le_of_succ_le (ih cs2 (pos + 1) m hm)
      | some q =>
        obtain ⟨k, subj, pred, obj⟩ := q
        cases k with
        | zero =>
          rw [hga] at hm
          exact Nat.le_of_succ_le (ih cs2 (pos + 1) m hm)
        | succ k2 =>
          rw [hga] at hm
          rcases List.mem_cons.mp hm with rfl | hm2
          · exact Nat.le_refl pos
          · have := ih _ (pos + (k2 + 1)) m hm2
            omega

/-- Every scanned match has a nonempty span. -/
theorem scanGenGo_bounds : ∀ (f : Nat) (cs : List Char) (pos : Nat),
    ∀ m ∈ scanGenGo f cs pos, m.mstart < m.mstop := by
  intro f
  induction f with
  | zero => intro cs pos m hm; exact absurd hm (List.not_mem_nil m)
  | succ f ih =>
    intro cs pos m hm
    cases cs with
    | nil => exact absurd hm (List.not_mem_nil m)
    | cons c cs2 =>
      rw [scanGenGo] at hm
      cases hga : matchGenAt (c :: cs2) with
      | none =>
        rw [hga] at hm
        exact ih cs2 (pos + 1) m hm
      | some q =>
        obtain ⟨k, subj, pred, obj⟩ := q
        cases k with
        | zero =>
          rw [hga] at hm
          exact ih cs2 (pos + 1) m hm
        | succ k2 =>
          rw [hga] at hm
          rcases List.mem_cons.mp hm with rfl | hm2
          · show pos < pos + (k2 + 1)
            omega
          · exact ih _ (pos + (k2 + 1)) m hm2

/-- The scanner's matches are textually ordered and non-overlapping. -/
theorem scanGenGo_pairwise : ∀ (f : Nat) (cs : List Char) (pos : Nat),
    (scanGenGo f cs pos).Pairwise (fun a b => a.mstop ≤ b.mstart) := by
  intro f
  induction f with
  | zero => intro cs pos; exact List.Pairwise.nil
  | succ f ih =>
    intro cs pos
    cases cs with
    | nil => exact List.Pairwise.nil
    | cons c cs2 =>
      rw [scanGenGo]
      cases hga : matchGenAt (c :: cs2) with
      | none => exact ih cs2 (pos + 1)
      | some q =>
        obtain ⟨k, subj, pred, obj⟩ := q
        cases k with
        | zero => exact ih cs2 (pos + 1)
        | succ k2 =>
          refine List.pairwise_cons.mpr ⟨?_, ih _ _⟩
          intro b hb
          have := scanGenGo_mstart_ge f _ (pos + (k2 + 1)) b hb
          show pos + (k2 + 1) ≤ b.mstart
          exact this

theorem scanGen_pairwise (body : List Char) :
    (scanGen body).Pairwise (fun a b => a.mstop ≤ b.mstart) :=
  scanGenGo_pairwise body.length body 0

theorem scanGen_bounds (body : List Char) :
    ∀ m ∈ scanGen body, m.mstart < m.mstop :=
  scanGenGo_bounds body.length body 0

/-- Any character in a whitespace-only gap is whitespace. -/
theorem gapWS_char (body : List Char) {e s p : Nat} {ch : Char}
    (hg : gapWS body e s = true) (h1 : e ≤ p) (h2 : p < s)
    (hc : body[p]? = some ch) : isSpacePy ch = true := by
  unfold gapWS at hg
  have hd : (body.drop e)[p - e]? = some ch := by
    rw [List.getElem?_drop]
    have hpe : e + (p - e) = p := by omega
    rw [hpe]; exact hc
  have hlt : p - e < s - e := by omega
  have ht : ((body.drop e).take (s - e))[p - e]? = some ch := by
    rw [List.getElem?_take_of_lt hlt]; exact hd
  exact List.all_eq_true.mp hg ch (List.getElem?_mem ht)

/-- Along a whitespace-chained tail, any uncovered position before a
member of the tail and at or past the chain start holds whitespace. -/
theorem gapChain_ws (body : List Char) : ∀ (g : List GMatch) (e p : Nat)
    (ch : Char) (mB : GMatch),
    runGapsWS body e g → e ≤ p → mB ∈ g → p < mB.mstart →
    (∀ m ∈ g, ¬(m.mstart ≤ p ∧ p < m.mstop)) →
    body[p]? = some ch → isSpacePy ch = true := by
  intro g
  induction g with
  | nil =>
    intro e p ch mB hgaps hep hmB hpB hncov hch
    exact absurd hmB (List.not_mem_nil mB)
  | cons n rest ih =>
    intro e p ch mB hgaps hep hmB hpB hncov hch
    obtain ⟨hg1, hg2⟩ := hgaps
    by_cases hpn : p < n.mstart
    · exact gapWS_char body hg1 hep hpn hch
    · push_neg at hpn
      have hpstop : n.mstop ≤ p := by
        rcases Nat.lt_or_ge p n.mstop with hlt | hge
        · exact absurd ⟨hpn, hlt⟩ (hncov n (List.mem_cons_self n rest))
        · exact hge
      rcases List.mem_cons.mp hmB with rfl | hmB2
      · omega
      · exact ih n.mstop p ch mB hg2 hpstop hmB2 hpB
          (fun m hm => hncov m (List.mem_cons_of_mem n hm)) hch

/-- Inside one contiguous run, any position after one member and before
another that is covered by no member of the run holds whitespace. -/
theorem run_no_nonws (body : List Char) (ms : List GMatch) (r : Run)
    (hr : r ∈ collectRuns body ms)
    (hpw : ms.Pairwise (fun a b => a.mstop ≤ b.mstart))
    (hbnd : ∀ m ∈ ms, m.mstart < m.mstop)
    (mA mB : GMatch) (hA : mA ∈ r.group) (hB : mB ∈ r.group)
    (p : Nat) (ch : Char)
    (hp1 : mA.mstop ≤ p) (hp2 : p < mB.mstart)
    (hch : body[p]? = some ch)
    (hcov : ∀ m ∈ r.group, ¬(m.mstart ≤ p ∧ p < m.mstop)) :
    isSpacePy ch = true := by
  obtain ⟨⟨m0, tail, hgrp, hgaps⟩, hsub⟩ := collectRuns_spec body ms r hr
  have hpwg : r.group.Pairwise (fun a b => a.mstop ≤ b.mstart) :=
    hpw.sublist hsub
  have hbndg : ∀ m ∈ r.group, m.mstart < m.mstop :=
    fun m hm => hbnd m (hsub.subset hm)
  rw [hgrp] at hA hB hcov hpwg hbndg
  have h0p : m0.mstop ≤ p := by
    rcases List.mem_cons.mp hA with rfl | hA2
    · exact hp1
    · have h1 : m0.mstop ≤ mA.mstart := (List.pairwise_cons.mp hpwg).1 mA hA2
      have h2 : mA.mstart < mA.mstop := hbndg mA (List.mem_cons_of_mem m0 hA2)
      omega
  rcases List.mem_cons.mp hB with rfl | hB2
  · have h3 : mB.mstart < mB.mstop := hbndg mB (List.mem_cons_self mB tail)
    omega
  · exact gapChain_ws body tail m0.mstop p ch mB hgaps h0p hB2 hp2
      (fun m hm => hcov m (List.mem_cons_of_mem m0 hm)) hch

/-- One segmenter step either extends the current segment by the new
match or closes it unchanged (modulo renames) and restarts from the new
match alone. -/
theorem segStep_cases (cm : CandMap) (eps : EpUrls) (st : SegState)
    (m : GMatch) :
    ((segStep cm eps st m).segments = st.segments ∧
     (segStep cm eps st m).cur.gmatches = st.cur.gmatches ++ [m]) ∨
    (∃ rn, (segStep cm eps st m).segments =
        st.segments ++ [{ st.cur with renames := rn }] ∧
     (segStep cm eps st m).cur.gmatches = [m]) := by
  simp only [segStep]
  split
  · exact Or.inr ⟨_, rfl, rfl⟩
  · exact Or.inl ⟨rfl, rfl⟩

/-- Segmenter fold invariant: all matches recorded in closed segments or
the current segment come from the processed input. -/
theorem foldl_matches_inv (cm : CandMap) (eps : EpUrls) :
    ∀ (ms : List GMatch) (st : SegState) (g : List GMatch),
      (∀ x ∈ ms, x ∈ g) →
      (∀ seg ∈ st.segments, ∀ x ∈ seg.gmatches, x ∈ g) →
      (∀ x ∈ st.cur.gmatches, x ∈ g) →
      (∀ seg ∈ (ms.foldl (segStep cm eps) st).segments,
        ∀ x ∈ seg.gmatches, x ∈ g) ∧
      (∀ x ∈ (ms.foldl (segStep cm eps) st).cur.gmatches, x ∈ g) := by
  intro ms
  induction ms with
  | nil => intro st g _ h1 h2; exact ⟨h1, h2⟩
  | cons m rest ih =>
    intro st g hms h1 h2
    refine ih (segStep cm eps st m) g
      (fun x hx => hms x (List.mem_cons_of_mem m hx)) ?_ ?_
    · rcases segStep_cases cm eps st m with ⟨hs, _⟩ | ⟨rn, hs, _⟩
      · rw [hs]; exact h1
      · rw [hs]
        intro seg hseg x hx
        rcases List.mem_append.mp hseg with ha | hb
        · exact h1 seg ha x hx
        · have hc : seg = { st.cur with renames := rn } := by simpa using hb
          rw [hc] at hx
          exact h2 x hx
    · rcases segStep_cases cm eps st m with ⟨_, hc⟩ | ⟨rn, _, hc⟩
      · rw [hc]
        intro x hx
        rcases List.mem_append.mp hx with ha | hb
        · exact h2 x ha
        · have hxm : x = m := by simpa using hb
          subst hxm
          exact hms x (List.mem_cons_self x rest)
      · rw [hc]
        intro x hx
        have hxm : x = m := by simpa using hx
        subst hxm
        exact hms x (List.mem_cons_self x rest)

/-- Every match of every segment the Segmenter produces is one of the
input matches. -/
theorem chains_matches_subset (g : List GMatch) (cm : CandMap)
    (eps : EpUrls) :
    ∀ seg ∈ (segmentByServiceChains g cm eps).1, ∀ x ∈ seg.gmatches, x ∈ g := by
  cases g with
  | nil => intro seg hseg; exact absurd hseg (List.not_mem_nil seg)
  | cons m0 rest =>
    intro seg hseg x hx
    have hinv := foldl_matches_inv cm eps rest (initSegState cm eps m0)
      (m0 :: rest)
      (fun y hy => List.mem_cons_of_mem m0 hy)
      (fun s hs => absurd hs (List.not_mem_nil s))
      (fun y hy => by
        have hym : y = m0 := by simpa [initSegState] using hy
        subst hym
        exact List.mem_cons_self y rest)
    have hseg2 : seg ∈
        (rest.foldl (segStep cm eps) (initSegState cm eps m0)).segments ++
        [(rest.foldl (segStep cm eps) (initSegState cm eps m0)).cur] := hseg
    rcases List.mem_append.mp hseg2 with ha | hb
    · exact hinv.1 seg ha x hx
    · have hc : seg =
          (rest.foldl (segStep cm eps) (initSegState cm eps m0)).cur := by
        simpa using hb
      rw [hc] at hx
      exact hinv.2 x hx

/-- C5: two scanned generic triples separated by an uncovered
non-whitespace character (such as the `O` of an `OPTIONAL { }` opening,
or either of its braces) are never placed into the same segment of any
run, hence never merged into the same `SERVICE` block, for every
CandidateMap and EndpointRegistry — even when both map to the same
endpoint. -/
theorem C5_optional_isolation (body : List Char) (cm : CandMap)
    (eps : EpUrls) (mA mB : GMatch) (p : Nat) (ch : Char)
    (hp1 : mA.mstop ≤ p) (hp2 : p < mB.mstart)
    (hch : body[p]? = some ch) (hws : isSpacePy ch = false)
    (hcov : ∀ m ∈ scanGen body, ¬(m.mstart ≤ p ∧ p < m.mstop)) :
    ∀ r ∈ collectRuns body (scanGen body),
      ∀ seg ∈ (segmentByServiceChains r.group cm eps).1,
        ¬(mA ∈ seg.gmatches ∧ mB ∈ seg.gmatches) := by
  intro r hr seg hseg hand
  obtain ⟨hAseg, hBseg⟩ := hand
  have hA : mA ∈ r.group :=
    chains_matches_subset r.group cm eps seg hseg mA hAseg
  have hB : mB ∈ r.group :=
    chains_matches_subset r.group cm eps seg hseg mB hBseg
  have hsub := (collectRuns_spec body (scanGen body) r hr).2
  have hcovg : ∀ m ∈ r.group, ¬(m.mstart ≤ p ∧ p < m.mstop) :=
    fun m hm => hcov m (hsub.subset hm)
  have hws2 := run_no_nonws body (scanGen body) r hr (scanGen_pairwise body)
    (scanGen_bounds body) mA mB hA hB p ch hp1 hp2 hch hcovg
  rw [hws2] at hws
  exact Bool.noConfusion hws

/-- C5, witness: `{ ?a gen:p ?b . OPTIONAL { ?c gen:q ?d . } }`, both
triples served by the same endpoint; the uncovered `O` at offset 16
separates them, so the first run's only segment cannot hold both. -/
theorem C5_witness :
    ((⟨2, 16, "?a", "gen:p", "?b"⟩ : GMatch).mstop ≤ 16 ∧
     16 < (⟨27, 41, "?c", "gen:q", "?d"⟩ : GMatch).mstart ∧
     "\x7b ?a gen:p ?b . OPTIONAL \x7b ?c gen:q ?d . \x7d \x7d".toList[16]? = some 'O' ∧
     isSpacePy 'O' = false ∧
     (∀ m ∈ scanGen "\x7b ?a gen:p ?b . OPTIONAL \x7b ?c gen:q ?d . \x7d \x7d".toList,
       ¬(m.mstart ≤ 16 ∧ 16 < m.mstop))) ∧
    ¬((⟨2, 16, "?a", "gen:p", "?b"⟩ : GMatch) ∈
        (⟨[⟨2, 16, "?a", "gen:p", "?b"⟩], ["http://a.example/sparql"],
          ["?a", "?b"], []⟩ : Segment).gmatches ∧
      (⟨27, 41, "?c", "gen:q", "?d"⟩ : GMatch) ∈
        (⟨[⟨2, 16, "?a", "gen:p", "?b"⟩], ["http://a.example/sparql"],
          ["?a", "?b"], []⟩ : Segment).gmatches) :=
  ⟨⟨by decide, by decide, by decide, by decide, by decide⟩,
    C5_optional_isolation
      "\x7b ?a gen:p ?b . OPTIONAL \x7b ?c gen:q ?d . \x7d \x7d".toList
      [("gen:p", [("epA", [[("predicate", PyVal.str "<http://x/p>")]])]),
       ("gen:q", [("epA", [[("predicate", PyVal.str "<http://x/q>")]])])]
      [("epA", "http://a.example/sparql")]
      ⟨2, 16, "?a", "gen:p", "?b"⟩ ⟨27, 41, "?c", "gen:q", "?d"⟩ 16 'O'
      (by decide) (by decide) (by decide) (by decide) (by decide)
      ⟨2, 16, [⟨2, 16, "?a", "gen:p", "?b"⟩]⟩ (by decide)
      ⟨[⟨2, 16, "?a", "gen:p", "?b"⟩], ["http://a.example/sparql"],
        ["?a", "?b"], []⟩ (by decide)⟩

end GenMap
